import Mathlib

/-!
# Stream scanning engine (cores/esp8266/Stream.cpp)

A shallow embedding of the parsing methods of the `Stream` class and a
verification of their contract.

Conventions of the embedding

* A byte is a `Nat` (0..255).  `char` is unsigned on this core, so a `char`
  promoted to `int` is its byte value; a value returned by `read()` / `peek()`
  is an `Int`: `-1` for "no data", the byte value otherwise.
* The byte source is the list of bytes it will still deliver, all of them
  already available; when the list is empty nothing arrives any more.
* `unsigned long` arithmetic of the timeout test is taken modulo `2^32`,
  `long` arithmetic of the numeric parsers wraps to 32 bits.
* A C string argument is the list of its bytes; reading past the end of the
  list gives `0` (the terminating NUL), `strlen` stops at the first `0`.
* Loops carry a fuel argument; running out of fuel is `none`.  Every public
  operation supplies its own fuel from the state, and the theorems below show
  the result is `some _`.
-/

namespace Arduino

/-- Number of values of an `unsigned long` (32 bits on this core). -/
def UL : Nat := 4294967296

/-- State of a `Stream` object together with the environment it talks to. -/
structure Stream where
  /-- bytes the source will still deliver, in order -/
  input : List Nat
  /-- member `_timeout` -/
  timeout : Nat
  /-- member `_startMillis` -/
  startMillis : Nat
  /-- elapsed real time in milliseconds -/
  clock : Nat
  /-- number of calls of `yield()` made so far -/
  yields : Nat
deriving DecidableEq, Repr

/-- Modelled from the spec: the underlying single-byte `read()` of the byte
source (pure virtual here): the next byte, consumed, or `-1` when none is
available. -/
def read (s : Stream) : Int × Stream :=
  match s.input with
  | [] => (-1, s)
  | b :: rest => ((b : Int), { s with input := rest })

/-- Modelled from the spec: the underlying `peek()` of the byte source: the
next byte, not consumed, or `-1` when none is available. -/
def peek (s : Stream) : Int :=
  match s.input with
  | [] => -1
  | b :: _ => (b : Int)

/-- Modelled from the spec: wall-clock retrieval `millis()`, an
`unsigned long`. -/
def millis (s : Stream) : Nat := s.clock % UL

/-- Modelled from the spec: the cooperative `yield()` hook; it returns after
one millisecond and is counted. -/
def yield (s : Stream) : Stream :=
  { s with clock := s.clock + 1, yields := s.yields + 1 }

/-- Method `setTimeout(unsigned long timeout)`. -/
def setTimeout (timeout : Nat) (s : Stream) : Stream :=
  { s with timeout := timeout % UL }

/-- The `do … while` loop of `timedRead`. -/
def timedReadLoop : Nat → Stream → Option (Int × Stream)
  | 0, _ => none
  | fuel + 1, s =>
    let r := read s
    if r.1 ≥ 0 then some r
    else if r.2.timeout = 0 then some (-1, r.2)
    else
      let s2 := yield r.2
      if (millis s2 + UL - s2.startMillis) % UL < s2.timeout then timedReadLoop fuel s2
      else some (-1, s2)

/-- Method `Stream::timedRead`: read with timeout, `-1` indicates timeout. -/
def timedRead (s : Stream) : Option (Int × Stream) :=
  timedReadLoop (s.timeout + 1) { s with startMillis := millis s }

/-- The `do … while` loop of `timedPeek`. -/
def timedPeekLoop : Nat → Stream → Option (Int × Stream)
  | 0, _ => none
  | fuel + 1, s =>
    let c := peek s
    if c ≥ 0 then some (c, s)
    else if s.timeout = 0 then some (-1, s)
    else
      let s2 := yield s
      if (millis s2 + UL - s2.startMillis) % UL < s2.timeout then timedPeekLoop fuel s2
      else some (-1, s2)

/-- Method `Stream::timedPeek`: peek with timeout, `-1` indicates timeout. -/
def timedPeek (s : Stream) : Option (Int × Stream) :=
  timedPeekLoop (s.timeout + 1) { s with startMillis := millis s }

/-- The state after a timed read or peek that found a byte at once. -/
def started (s : Stream) : Stream := { s with startMillis := millis s }

/-- The state after timed reads that found their bytes at once and left `rest`
unread. -/
def advance (s : Stream) (rest : List Nat) : Stream :=
  { s with input := rest, startMillis := millis s }

/-- The state after a timed read or peek that ran into the timeout. -/
def timedOut (s : Stream) : Stream :=
  if s.timeout = 0 then started s
  else { s with startMillis := millis s, clock := s.clock + s.timeout,
                yields := s.yields + s.timeout }

/-- Memory read `p[i]` through a `const char*`: the bytes of the list,
followed by NUL. -/
def charAt (p : List Nat) (i : Nat) : Nat := p.getD i 0

/-- C library `strlen`: the number of bytes before the first NUL. -/
def strlen (p : List Nat) : Nat := (p.takeWhile (fun b => b != 0)).length

/-- The conversion `(char) c` of an `int`. -/
def toChar (c : Int) : Nat := (c % 256).toNat

/-- Two's complement wrap of a value to the 32-bit `long` of this core. -/
def wrapLong (x : Int) : Int := (x + 2147483648) % 4294967296 - 2147483648

/-- The bytes of an ASCII text, for writing examples. -/
def ascii (t : String) : List Nat := t.toList.map Char.toNat

/-- The `while(1)` loop of `peekNextDigit`. -/
def peekNextDigitLoop (detectDecimal : Bool) : Nat → Stream → Option (Int × Stream)
  | 0, _ => none
  | fuel + 1, s =>
    match timedPeek s with
    | none => none
    | some (c, s1) =>
      if c < 0 ∨ c = 45 ∨ (c ≥ 48 ∧ c ≤ 57) ∨ (detectDecimal = true ∧ c = 46) then some (c, s1)
      else peekNextDigitLoop detectDecimal fuel (read s1).2

/-- Method `Stream::peekNextDigit`: peek of the next digit in the stream or `-1` if
timeout; discards non-numeric characters. -/
def peekNextDigit (detectDecimal : Bool) (s : Stream) : Option (Int × Stream) :=
  peekNextDigitLoop detectDecimal (s.input.length + 1) s

/-- The `while((c = timedRead()) > 0)` loop of the four-argument `findUntil`,
with the locals `index` and `termIndex`. -/
def findUntilLoop (target : List Nat) (targetLen : Nat) (terminator : List Nat) (termLen : Nat) :
    Nat → Nat → Nat → Stream → Option (Bool × Stream)
  | 0, _, _, _ => none
  | fuel + 1, index, termIndex, s =>
    match timedRead s with
    | none => none
    | some (c, s1) =>
      if c > 0 then
        let index1 := if c ≠ (charAt target index : Int) then 0 else index
        let hit : Bool := decide (c = (charAt target index1 : Int))
        let index2 := if hit then index1 + 1 else index1
        if hit ∧ index2 ≥ targetLen then some (true, s1)
        else if termLen > 0 ∧ c = (charAt terminator termIndex : Int) then
          if termIndex + 1 ≥ termLen then some (false, s1)
          else findUntilLoop target targetLen terminator termLen fuel index2 (termIndex + 1) s1
        else findUntilLoop target targetLen terminator termLen fuel index2 0 s1
      else some (false, s1)

/-- Method `Stream::findUntil(const char *target, size_t targetLen, const char *terminator,
size_t termLen)`. -/
def findUntilLen (target : List Nat) (targetLen : Nat) (terminator : List Nat) (termLen : Nat)
    (s : Stream) : Option (Bool × Stream) :=
  if charAt target 0 = 0 then some (true, s)
  else findUntilLoop target targetLen terminator termLen (s.input.length + 1) 0 0 s

/-- Method `Stream::findUntil(const char *target, const char *terminator)`. -/
def findUntil (target terminator : List Nat) (s : Stream) : Option (Bool × Stream) :=
  findUntilLen target (strlen target) terminator (strlen terminator) s

/-- Method `Stream::find(const char *target)`. -/
def find (target : List Nat) (s : Stream) : Option (Bool × Stream) :=
  findUntil target [] s

/-- Body of the `do … while` loop of `parseInt` before the byte is consumed:
the new values of `isNegative` and `value` for the peeked byte `c`. -/
def parseIntStep (skipChar : Nat) (isNegative : Bool) (value c : Int) : Bool × Int :=
  if c = skipChar then (isNegative, value)
  else if c = 45 then (true, value)
  else if c ≥ 48 ∧ c ≤ 57 then (isNegative, wrapLong (value * 10 + c - 48))
  else (isNegative, value)

/-- The `do … while` loop of `parseInt`. -/
def parseIntLoop (skipChar : Nat) : Nat → Bool → Int → Int → Stream → Option (Int × Stream)
  | 0, _, _, _, _ => none
  | fuel + 1, isNegative, value, c, s =>
    let st := parseIntStep skipChar isNegative value c
    match timedPeek (read s).2 with
    | none => none
    | some (c1, s2) =>
      if (c1 ≥ 48 ∧ c1 ≤ 57) ∨ c1 = skipChar then parseIntLoop skipChar fuel st.1 st.2 c1 s2
      else some (if st.1 then wrapLong (-st.2) else st.2, s2)

/-- Method `Stream::parseInt(char skipChar)`. -/
def parseInt (skipChar : Nat) (s : Stream) : Option (Int × Stream) :=
  match peekNextDigit false s with
  | none => none
  | some (c, s1) =>
    if c < 0 then some (0, s1)
    else parseIntLoop skipChar (s1.input.length + 1) false 0 c s1

/-- The `float` operations `parseFloat` uses: conversion from `long`, the
constants `1.0f` and `0.1f`, and multiplication. -/
structure FloatOps (F : Type) where
  ofLong : Int → F
  one : F
  tenth : F
  mul : F → F → F

/-- Exact arithmetic in place of `float`. -/
def exactOps : FloatOps ℚ where
  ofLong := fun v => (v : ℚ)
  one := 1
  tenth := 1 / 10
  mul := fun a b => a * b

/-- Locals of `parseFloat`. -/
structure FloatLocals (F : Type) where
  isNegative : Bool
  isFraction : Bool
  value : Int
  fraction : F

/-- Body of the `do … while` loop of `parseFloat` before the byte is consumed. -/
def parseFloatStep {F : Type} (ops : FloatOps F) (skipChar : Nat) (l : FloatLocals F) (c : Int) :
    FloatLocals F :=
  if c = skipChar then l
  else if c = 45 then { l with isNegative := true }
  else if c = 46 then { l with isFraction := true }
  else if c ≥ 48 ∧ c ≤ 57 then
    { l with value := wrapLong (l.value * 10 + c - 48),
             fraction := if l.isFraction then ops.mul l.fraction ops.tenth else l.fraction }
  else l

/-- The `do … while` loop of `parseFloat`. -/
def parseFloatLoop {F : Type} (ops : FloatOps F) (skipChar : Nat) :
    Nat → FloatLocals F → Int → Stream → Option (F × Stream)
  | 0, _, _, _ => none
  | fuel + 1, l, c, s =>
    let l1 := parseFloatStep ops skipChar l c
    match timedPeek (read s).2 with
    | none => none
    | some (c1, s2) =>
      if (c1 ≥ 48 ∧ c1 ≤ 57) ∨ c1 = 46 ∨ c1 = skipChar then
        parseFloatLoop ops skipChar fuel l1 c1 s2
      else
        let value := if l1.isNegative then wrapLong (-l1.value) else l1.value
        some (if l1.isFraction then ops.mul (ops.ofLong value) l1.fraction
              else ops.ofLong value, s2)

/-- Method `Stream::parseFloat(char skipChar)`. -/
def parseFloat {F : Type} (ops : FloatOps F) (skipChar : Nat) (s : Stream) :
    Option (F × Stream) :=
  match peekNextDigit true s with
  | none => none
  | some (c, s1) =>
    if c < 0 then some (ops.ofLong 0, s1)
    else parseFloatLoop ops skipChar (s1.input.length + 1)
      { isNegative := false, isFraction := false, value := 0, fraction := ops.one } c s1

/-- The `while(count < length)` loop of `readBytes`; `buffer` is the memory the
pointer argument points to. -/
def readBytesLoop (length : Nat) : Nat → Nat → List Nat → Stream → Option (Nat × List Nat × Stream)
  | 0, _, _, _ => none
  | fuel + 1, count, buffer, s =>
    if count < length then
      match timedRead s with
      | none => none
      | some (c, s1) =>
        if c < 0 then some (count, buffer, s1)
        else readBytesLoop length fuel (count + 1) (buffer.set count (toChar c)) s1
    else some (count, buffer, s)

/-- Method `Stream::readBytes(char *buffer, size_t length)`. -/
def readBytes (buffer : List Nat) (length : Nat) (s : Stream) : Option (Nat × List Nat × Stream) :=
  readBytesLoop length (length + 1) 0 buffer s

/-- The `while(index < length)` loop of `readBytesUntil`. -/
def readBytesUntilLoop (terminator : Nat) (length : Nat) :
    Nat → Nat → List Nat → Stream → Option (Nat × List Nat × Stream)
  | 0, _, _, _ => none
  | fuel + 1, index, buffer, s =>
    if index < length then
      match timedRead s with
      | none => none
      | some (c, s1) =>
        if c < 0 ∨ c = terminator then some (index, buffer, s1)
        else readBytesUntilLoop terminator length fuel (index + 1) (buffer.set index (toChar c)) s1
    else some (index, buffer, s)

/-- Method `Stream::readBytesUntil(char terminator, char *buffer, size_t length)`. -/
def readBytesUntil (terminator : Nat) (buffer : List Nat) (length : Nat) (s : Stream) :
    Option (Nat × List Nat × Stream) :=
  if length < 1 then some (0, buffer, s)
  else readBytesUntilLoop terminator length (length + 1) 0 buffer s

/-- Modelled from the spec: `String::remove(index, count)` of the string class
(not part of this file): the `count` bytes from position `index` on are taken
out of the string; nothing happens when `index` is past the end. -/
def strRemove (str : List Nat) (index count : Nat) : List Nat :=
  str.take index ++ str.drop (index + count)

/-- The `while((c = timedRead()) > 0)` loop of
`readStringUntil(const char*, uint32_t)`, with the locals `ret`, `occurrences`,
`termIndex` and `index`. -/
def readStringUntilSeqLoop (terminator : List Nat) (untilTotalNumberOfOccurrences termLen : Nat) :
    Nat → List Nat → Nat → Nat → Nat → Stream → Option (List Nat × Stream)
  | 0, _, _, _, _, _ => none
  | fuel + 1, ret, occurrences, termIndex, index, s =>
    match timedRead s with
    | none => none
    | some (c, s1) =>
      if c > 0 then
        let ret1 := ret ++ [toChar c]
        let index1 := index + 1
        if (charAt terminator termIndex : Int) = c then
          let termIndex1 := termIndex + 1
          if termIndex1 = termLen then
            let occurrences1 := (occurrences + 1) % 4294967296
            if occurrences1 = untilTotalNumberOfOccurrences then
              some (strRemove ret1 (index1 - termIndex1) termLen, s1)
            else
              readStringUntilSeqLoop terminator untilTotalNumberOfOccurrences termLen fuel
                ret1 occurrences1 termIndex1 index1 s1
          else
            readStringUntilSeqLoop terminator untilTotalNumberOfOccurrences termLen fuel
              ret1 occurrences termIndex1 index1 s1
        else
          readStringUntilSeqLoop terminator untilTotalNumberOfOccurrences termLen fuel
            ret1 occurrences 0 index1 s1
      else some (ret, s1)

/-- Method `Stream::readStringUntil(const char* terminator, uint32_t
untilTotalNumberOfOccurrences)`. -/
def readStringUntilSeq (terminator : List Nat) (untilTotalNumberOfOccurrences : Nat)
    (s : Stream) : Option (List Nat × Stream) :=
  readStringUntilSeqLoop terminator untilTotalNumberOfOccurrences (strlen terminator)
    (s.input.length + 1) [] 0 0 0 s

/-- A fresh stream object (timeout `PARSE_TIMEOUT`) on a source that will deliver
the given bytes. -/
def onInput (bytes : List Nat) : Stream :=
  { input := bytes, timeout := 1000, startMillis := 0, clock := 0, yields := 0 }

/-- A byte that is a decimal digit, `'0'` to `'9'`. -/
def isDigit (b : Nat) : Prop := 48 ≤ b ∧ b ≤ 57

instance (b : Nat) : Decidable (isDigit b) := by unfold isDigit; infer_instance

/-- The number a string of decimal digits denotes (most significant digit
first). -/
def decimalValue (ds : List Nat) : Nat :=
  Nat.ofDigits 10 ((ds.map (fun d => d - 48)).reverse)

/-- The loop `while(c >= 0)` of `readString`; the string is the list of its
bytes. -/
def readStringLoop : Nat → List Nat → Int → Stream → Option (List Nat × Stream)
  | 0, _, _, _ => none
  | fuel + 1, ret, c, s =>
    if c ≥ 0 then
      match timedRead s with
      | none => none
      | some (c1, s1) => readStringLoop fuel (ret ++ [toChar c]) c1 s1
    else some (ret, s)

/-- Method `Stream::readString()`. -/
def readString (s : Stream) : Option (List Nat × Stream) :=
  match timedRead s with
  | none => none
  | some (c, s1) => readStringLoop (s.input.length + 1) [] c s1

/-- Body of the loop of the four-argument `findUntil` for a byte `c` that passed
the test `c > 0`: the result when the body returns, else the new values of
`index` and `termIndex`. -/
def findUntilBody (target : List Nat) (targetLen : Nat) (terminator : List Nat) (termLen : Nat)
    (index termIndex c : Nat) : Except Bool (Nat × Nat) :=
  let index1 := if c ≠ charAt target index then 0 else index
  let hit : Bool := decide (c = charAt target index1)
  let index2 := if hit then index1 + 1 else index1
  if hit ∧ index2 ≥ targetLen then Except.error true
  else if termLen > 0 ∧ c = charAt terminator termIndex then
    if termIndex + 1 ≥ termLen then Except.error false
    else Except.ok (index2, termIndex + 1)
  else Except.ok (index2, 0)

/-- The body of the loop of `findUntil` run over a sequence of bytes, from given
values of `index` and `termIndex`: the result when the body returns on one of
the bytes (the target or the terminator is completed), else the cursors after
the last byte. -/
def findUntilScan (target : List Nat) (targetLen : Nat) (terminator : List Nat) (termLen : Nat) :
    List Nat → Nat → Nat → Except Bool (Nat × Nat)
  | [], index, termIndex => Except.ok (index, termIndex)
  | c :: cs, index, termIndex =>
    match findUntilBody target targetLen terminator termLen index termIndex c with
    | Except.error r => Except.error r
    | Except.ok (i, t) => findUntilScan target targetLen terminator termLen cs i t

/-! ## Timed single-byte access -/

theorem timedRead_cons (s : Stream) (b : Nat) (rest : List Nat) (h : s.input = b :: rest) :
    timedRead s = some ((b : Int), advance s rest) := by
  simp [timedRead, timedReadLoop, read, h, advance]

theorem timedPeek_cons (s : Stream) (b : Nat) (rest : List Nat) (h : s.input = b :: rest) :
    timedPeek s = some ((b : Int), started s) := by
  simp [timedPeek, timedPeekLoop, peek, h, started]

theorem timedReadLoop_step (f : Nat) (s : Stream) (hin : s.input = []) (h0 : s.timeout ≠ 0) :
    timedReadLoop (f + 1) s
      = if (millis (yield s) + UL - (yield s).startMillis) % UL < (yield s).timeout
          then timedReadLoop f (yield s) else some (-1, yield s) := by
  simp [timedReadLoop, read, hin, h0]

theorem timedPeekLoop_step (f : Nat) (s : Stream) (hin : s.input = []) (h0 : s.timeout ≠ 0) :
    timedPeekLoop (f + 1) s
      = if (millis (yield s) + UL - (yield s).startMillis) % UL < (yield s).timeout
          then timedPeekLoop f (yield s) else some (-1, yield s) := by
  simp [timedPeekLoop, peek, hin, h0]

theorem elapsed_yield (s : Stream) (hst : s.startMillis < UL)
    (hlt : (millis s + UL - s.startMillis) % UL + 1 < UL) :
    (millis (yield s) + UL - (yield s).startMillis) % UL
      = (millis s + UL - s.startMillis) % UL + 1 := by
  simp only [millis, yield, UL] at *
  omega

theorem yield_advance (s : Stream) (k : Nat) :
    ({ yield s with clock := (yield s).clock + k, yields := (yield s).yields + k } : Stream)
      = { s with clock := s.clock + (k + 1), yields := s.yields + (k + 1) } := by
  simp only [yield, Stream.mk.injEq, true_and]
  constructor <;> omega

theorem timedReadLoop_nil (k : Nat) : ∀ (fuel : Nat) (s : Stream), s.input = [] →
    s.timeout < UL → s.startMillis < UL → 0 < k → k ≤ fuel →
    (millis s + UL - s.startMillis) % UL + k = s.timeout →
    timedReadLoop fuel s
      = some (-1, { s with clock := s.clock + k, yields := s.yields + k }) := by
  induction k with
  | zero => intro fuel s _ _ _ hk; omega
  | succ k ih =>
    intro fuel s hin hT hst _ hf he
    obtain ⟨f, rfl⟩ : ∃ f, fuel = f + 1 := ⟨fuel - 1, by omega⟩
    have hstep := elapsed_yield s hst (by omega)
    have hy : (yield s).timeout = s.timeout := rfl
    rw [timedReadLoop_step f s hin (by omega), hstep, hy]
    by_cases hk : k = 0
    · subst hk
      rw [if_neg (by omega)]
      rfl
    · rw [if_pos (by omega), ih f (yield s) hin hT hst (by omega) (by omega)
        (by rw [hstep, hy]; omega), yield_advance]

theorem timedPeekLoop_nil (k : Nat) : ∀ (fuel : Nat) (s : Stream), s.input = [] →
    s.timeout < UL → s.startMillis < UL → 0 < k → k ≤ fuel →
    (millis s + UL - s.startMillis) % UL + k = s.timeout →
    timedPeekLoop fuel s
      = some (-1, { s with clock := s.clock + k, yields := s.yields + k }) := by
  induction k with
  | zero => intro fuel s _ _ _ hk; omega
  | succ k ih =>
    intro fuel s hin hT hst _ hf he
    obtain ⟨f, rfl⟩ : ∃ f, fuel = f + 1 := ⟨fuel - 1, by omega⟩
    have hstep := elapsed_yield s hst (by omega)
    have hy : (yield s).timeout = s.timeout := rfl
    rw [timedPeekLoop_step f s hin (by omega), hstep, hy]
    by_cases hk : k = 0
    · subst hk
      rw [if_neg (by omega)]
      rfl
    · rw [if_pos (by omega), ih f (yield s) hin hT hst (by omega) (by omega)
        (by rw [hstep, hy]; omega), yield_advance]

theorem elapsed_start (s : Stream) :
    (millis (started s) + UL - (started s).startMillis) % UL = 0 := by
  simp only [millis, started, UL]
  omega

theorem timedRead_nil (s : Stream) (h : s.input = []) (hT : s.timeout < UL) :
    timedRead s = some (-1, timedOut s) := by
  by_cases h0 : s.timeout = 0
  · simp [timedRead, timedReadLoop, read, h, h0, timedOut, started]
  · have hm : (started s).startMillis < UL := Nat.mod_lt _ (by decide)
    have := timedReadLoop_nil s.timeout (s.timeout + 1) (started s) h hT hm
      (by omega) (by omega) (by rw [elapsed_start]; simp [started])
    simp only [timedRead, timedOut, h0, if_false]
    exact this

theorem timedPeek_nil (s : Stream) (h : s.input = []) (hT : s.timeout < UL) :
    timedPeek s = some (-1, timedOut s) := by
  by_cases h0 : s.timeout = 0
  · simp [timedPeek, timedPeekLoop, peek, h, h0, timedOut, started]
  · have hm : (started s).startMillis < UL := Nat.mod_lt _ (by decide)
    have := timedPeekLoop_nil s.timeout (s.timeout + 1) (started s) h hT hm
      (by omega) (by omega) (by rw [elapsed_start]; simp [started])
    simp only [timedPeek, timedOut, h0, if_false]
    exact this

@[simp] theorem advance_input (s : Stream) (xs : List Nat) : (advance s xs).input = xs := rfl

@[simp] theorem advance_timeout (s : Stream) (xs : List Nat) :
    (advance s xs).timeout = s.timeout := rfl

@[simp] theorem started_input (s : Stream) : (started s).input = s.input := rfl

@[simp] theorem started_timeout (s : Stream) : (started s).timeout = s.timeout := rfl

@[simp] theorem advance_advance (s : Stream) (xs ys : List Nat) :
    advance (advance s xs) ys = advance s ys := by
  simp [advance, millis]

@[simp] theorem advance_started (s : Stream) (ys : List Nat) :
    advance (started s) ys = advance s ys := by
  simp [advance, started, millis]

@[simp] theorem started_advance (s : Stream) (ys : List Nat) :
    started (advance s ys) = advance s ys := by
  simp [advance, started, millis]

@[simp] theorem started_started (s : Stream) : started (started s) = started s := by
  simp [started, millis]

theorem read_started_cons (s : Stream) (b : Nat) (rest : List Nat) (h : s.input = b :: rest) :
    (read (started s)).2 = advance s rest := by
  simp [read, started, advance, h]

/-! ## String helpers -/

theorem strlen_eq_length (p : List Nat) (h : ∀ b ∈ p, b ≠ 0) : strlen p = p.length := by
  unfold strlen
  rw [List.takeWhile_eq_self_iff.mpr]
  intro b hb
  simpa using h b hb

theorem charAt_append_length (pre : List Nat) (b : Nat) (suf : List Nat) :
    charAt (pre ++ b :: suf) pre.length = b := by
  induction pre with
  | nil => rfl
  | cons a pre ih => simpa [charAt] using ih

/-! ## The pattern scanner -/

/-- One iteration of the loop of `findUntil` on a source whose next byte is the
non-zero byte `b`. -/
theorem findUntilLoop_cons (target : List Nat) (targetLen : Nat) (terminator : List Nat)
    (termLen fuel index termIndex : Nat) (s : Stream) (b : Nat) (rest : List Nat)
    (hin : s.input = b :: rest) (hb : b ≠ 0) :
    findUntilLoop target targetLen terminator termLen (fuel + 1) index termIndex s
      = if b = charAt target (if b ≠ charAt target index then 0 else index) ∧
            (if b ≠ charAt target index then 0 else index) + 1 ≥ targetLen
        then some (true, advance s rest)
        else if termLen > 0 ∧ b = charAt terminator termIndex then
          if termIndex + 1 ≥ termLen then some (false, advance s rest)
          else findUntilLoop target targetLen terminator termLen fuel
            (if b = charAt target (if b ≠ charAt target index then 0 else index)
              then (if b ≠ charAt target index then 0 else index) + 1
              else (if b ≠ charAt target index then 0 else index))
            (termIndex + 1) (advance s rest)
        else findUntilLoop target targetLen terminator termLen fuel
            (if b = charAt target (if b ≠ charAt target index then 0 else index)
              then (if b ≠ charAt target index then 0 else index) + 1
              else (if b ≠ charAt target index then 0 else index))
            0 (advance s rest) := by
  have hpos : (b : Int) > 0 := by omega
  simp only [findUntilLoop, timedRead_cons s b rest hin, hpos, if_true, Nat.cast_inj, ne_eq,
    decide_eq_true_eq]
  by_cases h1 : b = charAt target index
  · simp only [eq_true h1, if_true, not_true_eq_false, if_false, true_and, ge_iff_le]
  · by_cases h2 : b = charAt target 0
    · simp only [eq_false h1, eq_true h2, if_true, not_false_eq_true, if_false, true_and,
        ge_iff_le, zero_add]
    · simp only [eq_false h1, eq_false h2, if_true, not_false_eq_true, if_false, false_and,
        ge_iff_le]

/-- The target cursor runs straight through a source that continues the target. -/
theorem findUntilLoop_match (rest : List Nat) :
    ∀ (suf pre : List Nat) (fuel termIndex : Nat) (terminator : List Nat) (s : Stream),
      suf ≠ [] → (∀ b ∈ suf, b ≠ 0) → s.input = suf ++ rest → suf.length ≤ fuel →
      findUntilLoop (pre ++ suf) (pre ++ suf).length terminator 0 fuel pre.length termIndex s
        = some (true, advance s rest) := by
  intro suf
  induction suf with
  | nil => intro pre fuel ti term s h; exact absurd rfl h
  | cons b suf ih =>
    intro pre fuel ti term s _ hnz hin hfuel
    simp only [List.length_cons] at hfuel
    obtain ⟨f, rfl⟩ : ∃ f, fuel = f + 1 := ⟨fuel - 1, by omega⟩
    have hb : b ≠ 0 := hnz b (by simp)
    rw [findUntilLoop_cons _ _ _ _ _ _ _ s b (suf ++ rest) (by simpa using hin) hb]
    simp only [charAt_append_length, ne_eq, not_true_eq_false, if_false, true_and, if_true]
    by_cases hs : suf = []
    · subst hs
      simp
    · have hlen : ¬ (pre.length + 1 ≥ (pre ++ b :: suf).length) := by
        have : 0 < suf.length := List.length_pos.mpr hs
        simp only [List.length_append, List.length_cons]; omega
      rw [if_neg hlen]
      simp only [gt_iff_lt, lt_self_iff_false, false_and, if_false]
      have := ih (pre ++ [b]) f 0 term (advance s (suf ++ rest)) hs
        (fun x hx => hnz x (by simp [hx])) rfl (by omega)
      simp only [List.append_assoc, List.singleton_append, List.length_append,
        List.length_singleton, List.length_cons, advance_advance] at this
      simp only [List.length_append, List.length_cons]
      exact this

/-- C1: `find(target)` (that is `findUntil(target, "")`) on a source whose next
bytes are a non-empty target string followed by anything returns `true` and
consumes exactly the bytes of the target: the unread input is what followed. -/
theorem find_consumes_target (target rest : List Nat) (s : Stream)
    (hne : target ≠ []) (hnz : ∀ b ∈ target, b ≠ 0) (hin : s.input = target ++ rest) :
    find target s = some (true, advance s rest) ∧
    findUntil target [] s = some (true, advance s rest) ∧
    (advance s rest).input = s.input.drop target.length := by
  have h0 : charAt target 0 ≠ 0 := by
    cases target with
    | nil => exact absurd rfl hne
    | cons b t => simpa [charAt] using hnz b (by simp)
  have key : findUntil target [] s = some (true, advance s rest) := by
    have := findUntilLoop_match rest target [] (s.input.length + 1) 0 [] s hne hnz hin
      (by simp only [hin, List.length_append]; omega)
    simp only [List.nil_append, List.length_nil] at this
    simp only [findUntil, findUntilLen, h0, if_false, strlen_eq_length target hnz]
    simpa [strlen] using this
  exact ⟨key, key, by simp [hin]⟩

/-- C1, example of the specification: `findUntil("ABAB", "")` on `"ABABAB"`
returns `true` and leaves `"AB"`, four bytes consumed. -/
theorem find_consumes_target_witness :
    find (ascii "ABAB") (onInput (ascii "ABABAB"))
        = some (true, advance (onInput (ascii "ABABAB")) (ascii "AB")) ∧
    findUntil (ascii "ABAB") [] (onInput (ascii "ABABAB"))
        = some (true, advance (onInput (ascii "ABABAB")) (ascii "AB")) ∧
    (advance (onInput (ascii "ABABAB")) (ascii "AB")).input
        = (onInput (ascii "ABABAB")).input.drop (ascii "ABAB").length :=
  find_consumes_target (ascii "ABAB") (ascii "AB") (onInput (ascii "ABABAB"))
    (by decide) (by decide) (by decide)

theorem take_succ_charAt (t : List Nat) (i : Nat) (h : i < t.length) :
    t.take (i + 1) = t.take i ++ [charAt t i] := by
  rw [List.take_succ]
  simp [charAt, List.getD_eq_getElem?_getD, List.getElem?_eq_getElem h]

/-- The step of the target cursor keeps the cursor invariant: the bytes under
the cursor are the last bytes consumed; and when the cursor reaches the end of
the target, the bytes consumed end with the target. -/
theorem cursor_step (target pre : List Nat) (index b : Nat) (hne : target ≠ [])
    (hlt : index < target.length) (hinv : target.take index <:+ pre) :
    (if b ≠ charAt target index then 0 else index) < target.length ∧
    (b = charAt target (if b ≠ charAt target index then 0 else index) →
      target.take ((if b ≠ charAt target index then 0 else index) + 1) <:+ pre ++ [b]) := by
  have hpos : 0 < target.length := List.length_pos.mpr hne
  by_cases h1 : b = charAt target index
  · simp only [h1, ne_eq, not_true_eq_false, if_false, hlt, true_and, forall_const]
    rw [take_succ_charAt target index hlt]
    obtain ⟨t, ht⟩ := hinv
    exact ⟨t, by rw [← List.append_assoc, ht]⟩
  · simp only [ne_eq, h1, not_false_eq_true, if_true, hpos, true_and]
    intro h2
    rw [take_succ_charAt target 0 hpos, ← h2]
    exact ⟨pre, by simp⟩

/-- While the source replays the terminator and the target is not inside it,
the scan runs to the end of the terminator and fails there. -/
theorem findUntilLoop_terminator (target rest : List Nat) (hne : target ≠ []) :
    ∀ (suf pre : List Nat) (fuel index : Nat) (s : Stream),
      suf ≠ [] → (∀ b ∈ suf, b ≠ 0) → ¬ target <:+: pre ++ suf →
      s.input = suf ++ rest → suf.length ≤ fuel →
      index < target.length → target.take index <:+ pre →
      findUntilLoop target target.length (pre ++ suf) (pre ++ suf).length fuel index pre.length s
        = some (false, advance s rest) := by
  intro suf
  induction suf with
  | nil => intro pre fuel index s h; exact absurd rfl h
  | cons b suf ih =>
    intro pre fuel index s _ hnz hsub hin hfuel hlt hinv
    simp only [List.length_cons] at hfuel
    obtain ⟨f, rfl⟩ : ∃ f, fuel = f + 1 := ⟨fuel - 1, by omega⟩
    have hb : b ≠ 0 := hnz b (by simp)
    obtain ⟨hlt1, hstep⟩ := cursor_step target pre index b hne hlt hinv
    rw [findUntilLoop_cons _ _ _ _ _ _ _ s b (suf ++ rest) (by simpa using hin) hb]
    generalize hi1 : (if b ≠ charAt target index then 0 else index) = index1 at hlt1 hstep ⊢
    have hnot : ¬ (b = charAt target index1 ∧ index1 + 1 ≥ target.length) := by
      rintro ⟨hhit, hlen⟩
      have hfull : target.take (index1 + 1) = target := List.take_of_length_le hlen
      have hsuf := hstep hhit
      rw [hfull] at hsuf
      apply hsub
      obtain ⟨t, ht⟩ := hsuf
      exact ⟨t, suf, by rw [ht]; simp⟩
    rw [if_neg hnot]
    have hterm : (pre ++ b :: suf).length > 0 ∧ b = charAt (pre ++ b :: suf) pre.length := by
      refine ⟨by simp, (charAt_append_length pre b suf).symm⟩
    rw [if_pos hterm]
    by_cases hs : suf = []
    · subst hs
      simp
    · have hlen : ¬ (pre.length + 1 ≥ (pre ++ b :: suf).length) := by
        have : 0 < suf.length := List.length_pos.mpr hs
        simp only [List.length_append, List.length_cons]; omega
      rw [if_neg hlen]
      have hinv2 : target.take (if b = charAt target index1 then index1 + 1 else index1)
          <:+ pre ++ [b] := by
        by_cases hhit : b = charAt target index1
        · simpa [hhit] using hstep hhit
        · have h0 : index1 = 0 := by
            by_cases h1 : b = charAt target index
            · simp [h1] at hi1; subst hi1; exact absurd h1 hhit
            · simp [h1] at hi1; exact hi1.symm
          subst h0
          simp [hhit]
      have hlt2 : (if b = charAt target index1 then index1 + 1 else index1) < target.length := by
        by_cases hhit : b = charAt target index1
        · have : ¬ (index1 + 1 ≥ target.length) := fun h => hnot ⟨hhit, h⟩
          simp only [hhit, if_true]; omega
        · simpa [hhit] using hlt1
      have := ih (pre ++ [b]) f _ (advance s (suf ++ rest)) hs
        (fun x hx => hnz x (by simp [hx])) (by simpa using hsub) rfl (by omega) hlt2 hinv2
      simp only [List.append_assoc, List.singleton_append, List.length_append,
        List.length_singleton, advance_advance] at this
      simp only [List.length_append]
      exact this

/-- C2: for a non-empty target and a non-empty terminator that does not contain
the target, `findUntil(target, terminator)` on a source that begins with the
terminator returns `false` having consumed exactly the terminator. -/
theorem findUntil_terminator_first (target terminator rest : List Nat) (s : Stream)
    (hne : target ≠ []) (hT : terminator ≠ [])
    (hnz : ∀ b ∈ target, b ≠ 0) (hnzT : ∀ b ∈ terminator, b ≠ 0)
    (hsub : ¬ target <:+: terminator) (hin : s.input = terminator ++ rest) :
    findUntil target terminator s = some (false, advance s rest) ∧
    (advance s rest).input = s.input.drop terminator.length := by
  have h0 : charAt target 0 ≠ 0 := by
    cases target with
    | nil => exact absurd rfl hne
    | cons b t => simpa [charAt] using hnz b (by simp)
  have := findUntilLoop_terminator target rest hne terminator [] (s.input.length + 1) 0 s hT hnzT
    (by simpa using hsub) hin (by simp only [hin, List.length_append]; omega)
    (List.length_pos.mpr hne) (by simp)
  simp only [List.nil_append, List.length_nil] at this
  refine ⟨?_, by simp [hin]⟩
  simp only [findUntil, findUntilLen, h0, if_false, strlen_eq_length target hnz,
    strlen_eq_length terminator hnzT]
  exact this

/-- C2, example of the specification: `findUntil("ABC", "X")` on `"XYZABC"`
returns `false` having consumed one byte. -/
theorem findUntil_terminator_first_witness :
    findUntil (ascii "ABC") (ascii "X") (onInput (ascii "XYZABC"))
        = some (false, advance (onInput (ascii "XYZABC")) (ascii "YZABC")) ∧
    (advance (onInput (ascii "XYZABC")) (ascii "YZABC")).input
        = (onInput (ascii "XYZABC")).input.drop (ascii "X").length :=
  findUntil_terminator_first (ascii "ABC") (ascii "X") (ascii "YZABC") (onInput (ascii "XYZABC"))
    (by decide) (by decide) (by decide) (by decide) (by decide) (by decide)

/-- C9: `find("")`, and `findUntil("", terminator)` for every terminator string,
return `true` in every state of the source and leave the state as it was: no
byte is consumed. -/
theorem find_empty_target (terminator : List Nat) (s : Stream) :
    find [] s = some (true, s) ∧ findUntil [] terminator s = some (true, s) := by
  simp [find, findUntil, findUntilLen, charAt]

theorem set_append_length (w : List Nat) (x b : Nat) (tl : List Nat) :
    (w ++ x :: tl).set w.length b = w ++ b :: tl := by
  induction w with
  | nil => rfl
  | cons a w ih => simp [ih]

theorem toChar_byte (b : Nat) (h : b < 256) : toChar (b : Int) = b := by
  unfold toChar
  omega

/-- The loop of `readBytesUntil` copies the bytes before the terminator behind
what it has already written and stops on the terminator, which it consumes. -/
theorem readBytesUntilLoop_until (t length : Nat) (rest : List Nat) :
    ∀ (pre w tl : List Nat) (fuel : Nat) (s : Stream),
      t ∉ pre → (∀ b ∈ pre, b < 256) → s.input = pre ++ t :: rest →
      w.length + pre.length < length → pre.length ≤ tl.length → pre.length < fuel →
      readBytesUntilLoop t length fuel w.length (w ++ tl) s
        = some (w.length + pre.length, w ++ pre ++ tl.drop pre.length, advance s rest) := by
  intro pre
  induction pre with
  | nil =>
    intro w tl fuel s _ _ hin hlen _ hfuel
    obtain ⟨f, rfl⟩ : ∃ f, fuel = f + 1 := ⟨fuel - 1, by simp at hfuel; omega⟩
    have hlt : w.length < length := by simpa using hlen
    simp [readBytesUntilLoop, hlt, timedRead_cons s t rest (by simpa using hin)]
  | cons b pre ih =>
    intro w tl fuel s hmem hbytes hin hlen htl hfuel
    simp only [List.length_cons] at hlen htl hfuel
    obtain ⟨f, rfl⟩ : ∃ f, fuel = f + 1 := ⟨fuel - 1, by omega⟩
    obtain ⟨x, tl, rfl⟩ : ∃ x tl2, tl = x :: tl2 := by
      cases tl with
      | nil => simp at htl
      | cons x tl2 => exact ⟨x, tl2, rfl⟩
    have hlt : w.length < length := by omega
    have hbt : ¬ ((b : Int) < 0 ∨ (b : Int) = (t : Int)) := by
      have : b ≠ t := fun h => hmem (by simp [h])
      omega
    have hih := ih (w ++ [b]) tl f (advance s (pre ++ t :: rest))
      (fun h => hmem (by simp [h])) (fun y hy => hbytes y (by simp [hy])) rfl
      (by simp only [List.length_append, List.length_singleton]; omega)
      (by simpa using htl) (by omega)
    simp only [List.length_append, List.length_singleton, List.append_assoc,
      List.singleton_append, advance_advance] at hih
    simp only [readBytesUntilLoop, hlt, if_true,
      timedRead_cons s b (pre ++ t :: rest) (by simpa using hin), hbt, if_false,
      toChar_byte b (hbytes b (by simp)), set_append_length, hih]
    simp only [List.length_cons, List.drop_succ_cons, List.cons_append, List.append_assoc,
      Option.some.injEq, Prod.mk.injEq, and_true]
    omega

/-- C4: on a source `pre ++ [t] ++ rest` with `t` not in `pre` and room for more
than `len(pre)` bytes, `readBytesUntil(t, buf, length)` returns `len(pre)`,
the buffer holds `pre` in front of its untouched remainder, and exactly `rest`
is left unread; with `length = 0` it returns 0 and nothing changes. -/
theorem readBytesUntil_terminator (t length : Nat) (pre rest buf : List Nat) (s : Stream)
    (hmem : t ∉ pre) (hbytes : ∀ b ∈ pre, b < 256) (hin : s.input = pre ++ t :: rest)
    (hlen : pre.length < length) (hcap : length ≤ buf.length) :
    readBytesUntil t buf length s
        = some (pre.length, pre ++ buf.drop pre.length, advance s rest) ∧
    (pre ++ buf.drop pre.length).take pre.length = pre ∧
    readBytesUntil t buf 0 s = some (0, buf, s) := by
  have h := readBytesUntilLoop_until t length rest pre [] buf (length + 1) s hmem hbytes hin
    (by simpa using hlen) (by omega) (by omega)
  have h1 : ¬ length < 1 := by omega
  refine ⟨?_, by simp, by simp [readBytesUntil]⟩
  simpa [readBytesUntil, h1] using h

/-- C4, example of the specification: `readBytesUntil(',', buf, 10)` on
`"ab,cd"` returns 2, the buffer starts with `"ab"`, and `"cd"` is left. -/
theorem readBytesUntil_terminator_witness :
    readBytesUntil 44 (List.replicate 10 0) 10 (onInput (ascii "ab,cd"))
        = some ((ascii "ab").length, ascii "ab" ++ (List.replicate 10 0).drop (ascii "ab").length,
            advance (onInput (ascii "ab,cd")) (ascii "cd")) ∧
    (ascii "ab" ++ (List.replicate 10 0).drop (ascii "ab").length).take (ascii "ab").length
        = ascii "ab" ∧
    readBytesUntil 44 (List.replicate 10 0) 0 (onInput (ascii "ab,cd"))
        = some (0, List.replicate 10 0, onInput (ascii "ab,cd")) :=
  readBytesUntil_terminator 44 10 (ascii "ab") (ascii "cd") (List.replicate 10 0)
    (onInput (ascii "ab,cd")) (by decide) (by decide) (by decide) (by decide) (by decide)

/-! ## The string accumulator -/

/-- One iteration of the loop of `readStringUntil(const char*, uint32_t)` on a
source whose next byte is the non-zero byte `b`. -/
theorem readStringUntilSeqLoop_cons (t : List Nat) (n tl f : Nat) (ret : List Nat)
    (occ ti idx : Nat) (s : Stream) (b : Nat) (rest : List Nat)
    (hin : s.input = b :: rest) (hb : b ≠ 0) (h256 : b < 256) :
    readStringUntilSeqLoop t n tl (f + 1) ret occ ti idx s
      = if charAt t ti = b then
          if ti + 1 = tl then
            if (occ + 1) % 4294967296 = n then
              some (strRemove (ret ++ [b]) (idx + 1 - (ti + 1)) tl, advance s rest)
            else readStringUntilSeqLoop t n tl f (ret ++ [b]) ((occ + 1) % 4294967296) (ti + 1)
              (idx + 1) (advance s rest)
          else readStringUntilSeqLoop t n tl f (ret ++ [b]) occ (ti + 1) (idx + 1) (advance s rest)
        else readStringUntilSeqLoop t n tl f (ret ++ [b]) occ 0 (idx + 1) (advance s rest) := by
  have hpos : (b : Int) > 0 := by omega
  simp only [readStringUntilSeqLoop, timedRead_cons s b rest hin, hpos, if_true, Nat.cast_inj,
    toChar_byte b h256]

/-- Bytes of a segment (none of them in the terminator, none zero) are
appended and put the cursor to 0. -/
theorem readStringUntilSeqLoop_segment (t : List Nat) (n tl : Nat) (more : List Nat) :
    ∀ (seg ret : List Nat) (occ ti idx f : Nat) (s : Stream),
      seg ≠ [] →
      (∀ b ∈ seg, b ≠ 0 ∧ b < 256 ∧ charAt t 0 ≠ b ∧ charAt t ti ≠ b) →
      s.input = seg ++ more →
      readStringUntilSeqLoop t n tl (seg.length + f) ret occ ti idx s
        = readStringUntilSeqLoop t n tl f (ret ++ seg) occ 0 (idx + seg.length)
            (advance s more) := by
  intro seg
  induction seg with
  | nil => intro ret occ ti idx f s h; exact absurd rfl h
  | cons b seg ih =>
    intro ret occ ti idx f s _ hseg hin
    obtain ⟨hb0, hb256, _, hbti⟩ := hseg b (by simp)
    rw [show (b :: seg).length + f = (seg.length + f) + 1 by simp only [List.length_cons]; omega,
      readStringUntilSeqLoop_cons t n tl _ ret occ ti idx s b (seg ++ more) (by simpa using hin)
        hb0 hb256, if_neg hbti]
    by_cases hs : seg = []
    · subst hs
      simp
    · rw [ih (ret ++ [b]) occ 0 (idx + 1) f (advance s (seg ++ more)) hs
        (fun x hx => by
          obtain ⟨h1, h2, h3, _⟩ := hseg x (by simp [hx])
          exact ⟨h1, h2, h3, h3⟩) rfl]
      simp only [List.append_assoc, List.singleton_append, advance_advance, List.length_cons]
      congr 1
      omega

/-- The cursor runs through an occurrence of the terminator; at its end the
occurrence is counted, and the scan stops when the count is reached. -/
theorem readStringUntilSeqLoop_terminator (n : Nat) (more : List Nat) :
    ∀ (tsuf tpre ret : List Nat) (occ idx f : Nat) (s : Stream),
      tsuf ≠ [] → (∀ b ∈ tsuf, b ≠ 0 ∧ b < 256) → s.input = tsuf ++ more →
      readStringUntilSeqLoop (tpre ++ tsuf) n (tpre ++ tsuf).length (tsuf.length + f) ret occ
          tpre.length idx s
        = if (occ + 1) % 4294967296 = n then
            some (strRemove (ret ++ tsuf) (idx + tsuf.length - (tpre ++ tsuf).length)
              (tpre ++ tsuf).length, advance s more)
          else readStringUntilSeqLoop (tpre ++ tsuf) n (tpre ++ tsuf).length f (ret ++ tsuf)
            ((occ + 1) % 4294967296) (tpre ++ tsuf).length (idx + tsuf.length)
            (advance s more) := by
  intro tsuf
  induction tsuf with
  | nil => intro tpre ret occ idx f s h; exact absurd rfl h
  | cons b tsuf ih =>
    intro tpre ret occ idx f s _ hbytes hin
    obtain ⟨hb0, hb256⟩ := hbytes b (by simp)
    rw [show (b :: tsuf).length + f = (tsuf.length + f) + 1 by simp only [List.length_cons]; omega,
      readStringUntilSeqLoop_cons _ n _ _ ret occ _ idx s b (tsuf ++ more) (by simpa using hin)
        hb0 hb256, if_pos (charAt_append_length tpre b tsuf)]
    by_cases hs : tsuf = []
    · subst hs
      simp
    · have hlen : ¬ (tpre.length + 1 = (tpre ++ b :: tsuf).length) := by
        have : 0 < tsuf.length := List.length_pos.mpr hs
        simp only [List.length_append, List.length_cons]; omega
      rw [if_neg hlen]
      have := ih (tpre ++ [b]) (ret ++ [b]) occ (idx + 1) f (advance s (tsuf ++ more)) hs
        (fun x hx => hbytes x (by simp [hx])) rfl
      simp only [List.append_assoc, List.singleton_append, List.length_append,
        List.length_singleton, advance_advance, List.length_cons, List.length_nil,
        zero_add] at this
      simp only [List.length_append, List.length_cons]
      rw [this, show idx + 1 + tsuf.length = idx + (tsuf.length + 1) by omega]

theorem strRemove_suffix (a t : List Nat) :
    strRemove (a ++ t) (a.length + t.length - t.length) t.length = a := by
  simp [strRemove]

theorem charAt_length (t : List Nat) : charAt t t.length = 0 := by
  simp [charAt]

theorem charAt_zero_mem (t : List Nat) (h : t ≠ []) : charAt t 0 ∈ t := by
  cases t with
  | nil => exact absurd rfl h
  | cons b t => simp [charAt]

/-- Scan of `seg₁ t seg₂ t … seg_k t rest` when `k` occurrences are still to be
counted: all but the last terminator stay in the result. -/
theorem readStringUntilSeqLoop_segments (t rest : List Nat) (n : Nat) (ht : t ≠ [])
    (htb : ∀ b ∈ t, b ≠ 0 ∧ b < 256) (hn : n < 4294967296) :
    ∀ (segs : List (List Nat)) (ret : List Nat) (occ ti f : Nat) (s : Stream),
      segs ≠ [] → (∀ seg ∈ segs, seg ≠ [] ∧ ∀ b ∈ seg, b ≠ 0 ∧ b < 256 ∧ b ∉ t) →
      (ti = 0 ∨ ti = t.length) → occ + segs.length = n →
      s.input = (segs.map (fun seg => seg ++ t)).flatten ++ rest →
      readStringUntilSeqLoop t n t.length (((segs.map (fun seg => seg ++ t)).flatten).length + f)
          ret occ ti ret.length s
        = some (ret ++ List.intercalate t segs, advance s rest) := by
  intro segs
  induction segs with
  | nil => intro ret occ ti f s h; exact absurd rfl h
  | cons seg segs ih =>
    intro ret occ ti f s _ hsegs hti hocc hin
    obtain ⟨hsne, hsb⟩ := hsegs seg (by simp)
    simp only [List.map_cons, List.flatten_cons, List.append_assoc] at hin
    have hfuel : ((List.map (fun seg => seg ++ t) (seg :: segs)).flatten).length + f
        = seg.length + (t.length +
            (((List.map (fun seg => seg ++ t) segs).flatten).length + f)) := by
      simp only [List.map_cons, List.flatten_cons, List.length_append]; omega
    rw [hfuel, readStringUntilSeqLoop_segment t n t.length _ seg ret occ ti ret.length _ s hsne
      (fun b hb => by
        obtain ⟨h0, h256, hnt⟩ := hsb b hb
        refine ⟨h0, h256, fun h => hnt (h ▸ charAt_zero_mem t ht), ?_⟩
        rcases hti with rfl | rfl
        · exact fun h => hnt (h ▸ charAt_zero_mem t ht)
        · rw [charAt_length]; exact fun h => h0 h.symm) hin]
    have hterm := readStringUntilSeqLoop_terminator n
      ((List.map (fun seg => seg ++ t) segs).flatten ++ rest) t [] (ret ++ seg) occ
      (ret.length + seg.length) (((List.map (fun seg => seg ++ t) segs).flatten).length + f)
      (advance s (t ++ ((List.map (fun seg => seg ++ t) segs).flatten ++ rest))) ht htb rfl
    simp only [List.nil_append, List.length_nil, advance_advance] at hterm
    rw [hterm]
    simp only [List.length_cons] at hocc
    have hmod : (occ + 1) % 4294967296 = occ + 1 := Nat.mod_eq_of_lt (by omega)
    rw [hmod]
    by_cases hs : segs = []
    · subst hs
      have h1 : occ + 1 = n := by simpa using hocc
      rw [if_pos h1, ← List.length_append, strRemove_suffix]
      simp [List.intercalate, List.intersperse]
    · have hpos : 0 < segs.length := List.length_pos.mpr hs
      have h1 : ¬ occ + 1 = n := by omega
      rw [if_neg h1]
      have := ih (ret ++ seg ++ t) (occ + 1) t.length f (advance s
        ((List.map (fun seg => seg ++ t) segs).flatten ++ rest)) hs
        (fun x hx => hsegs x (by simp [hx])) (Or.inr rfl) (by omega) rfl
      simp only [List.length_append, advance_advance, List.append_assoc] at this
      simp only [List.append_assoc]
      rw [Nat.add_assoc, this]
      obtain ⟨seg2, segs2, rfl⟩ : ∃ a l, segs = a :: l := by
        cases segs with
        | nil => exact absurd rfl hs
        | cons a l => exact ⟨a, l, rfl⟩
      simp [List.intercalate, List.intersperse]

/-- C5: for a non-empty terminator string `t`, non-empty segments `s₁ … sₙ`
(`n ≥ 1`) without zero bytes and without bytes of `t`, `readStringUntil(t, n)`
on `s₁ t s₂ t … sₙ t rest` returns `s₁ t … t sₙ`: the `n`-th terminator is
removed, the earlier ones are kept, and `rest` is left unread. -/
theorem readStringUntilSeq_segments (t rest : List Nat) (segs : List (List Nat)) (s : Stream)
    (ht : t ≠ []) (htb : ∀ b ∈ t, b ≠ 0 ∧ b < 256) (hsne : segs ≠ [])
    (hn : segs.length < 4294967296)
    (hsegs : ∀ seg ∈ segs, seg ≠ [] ∧ ∀ b ∈ seg, b ≠ 0 ∧ b < 256 ∧ b ∉ t)
    (hin : s.input = (segs.map (fun seg => seg ++ t)).flatten ++ rest) :
    readStringUntilSeq t segs.length s = some (List.intercalate t segs, advance s rest) := by
  have := readStringUntilSeqLoop_segments t rest segs.length ht htb hn segs [] 0 0
    (rest.length + 1) s hsne hsegs (Or.inl rfl) (by omega) hin
  simp only [List.length_nil, List.nil_append] at this
  simp only [readStringUntilSeq, strlen_eq_length t (fun b hb => (htb b hb).1), hin,
    List.length_append]
  rw [← this]
  congr 1

/-- C5, example of the specification: `readStringUntil("::", 2)` on
`"foo::bar::baz"` returns `"foo::bar"`; both terminators are consumed. -/
theorem readStringUntilSeq_segments_witness :
    readStringUntilSeq (ascii "::") [ascii "foo", ascii "bar"].length
        (onInput (ascii "foo::bar::baz"))
      = some (List.intercalate (ascii "::") [ascii "foo", ascii "bar"],
          advance (onInput (ascii "foo::bar::baz")) (ascii "baz")) :=
  readStringUntilSeq_segments (ascii "::") (ascii "baz") [ascii "foo", ascii "bar"]
    (onInput (ascii "foo::bar::baz")) (by decide) (by decide) (by decide) (by decide)
    (by decide) (by decide)

/-- C6 as stated fails: after `readStringUntil("::", 2)` on `"foo::bar::baz"` the
unread remainder is not `"::baz"`. -/
theorem readStringUntilSeq_example_remainder_not :
    (readStringUntilSeq (ascii "::") 2 (onInput (ascii "foo::bar::baz"))).map
        (fun r => r.2.input) ≠ some (ascii "::baz") := by
  decide

/-- C6, amended: `readStringUntil("::", 2)` on `"foo::bar::baz"` returns
`"foo::bar"` and the unread remainder of the source is `"baz"`: the second
terminator is consumed. -/
theorem readStringUntilSeq_example_remainder :
    (readStringUntilSeq (ascii "::") 2 (onInput (ascii "foo::bar::baz"))).map
        (fun r => (r.1, r.2.input)) = some (ascii "foo::bar", ascii "baz") := by
  decide

/-! ## The digit gate and the numeric parsers -/

@[simp] theorem timedOut_input (s : Stream) : (timedOut s).input = s.input := by
  unfold timedOut; split <;> rfl

@[simp] theorem timedOut_timeout (s : Stream) : (timedOut s).timeout = s.timeout := by
  unfold timedOut; split <;> rfl

theorem started_eq_advance (s : Stream) : started s = advance s s.input := rfl

theorem read_cons (s : Stream) (b : Nat) (rest : List Nat) (h : s.input = b :: rest) :
    read s = ((b : Int), { s with input := rest }) := by
  simp [read, h]

theorem read_nil (s : Stream) (h : s.input = []) : read s = (-1, s) := by
  simp [read, h]

theorem wrapLong_id (x : Int) (h1 : -2147483648 ≤ x) (h2 : x < 2147483648) : wrapLong x = x := by
  unfold wrapLong
  omega

/-- The gate skips bytes that are neither a digit nor `-` (nor `.` when the
decimal point is detected) and returns the first byte that is, unconsumed. -/
theorem peekNextDigitLoop_skip (dd : Bool) (x : Nat) (more : List Nat)
    (hx : x = 45 ∨ isDigit x ∨ (dd = true ∧ x = 46)) :
    ∀ (noise : List Nat) (fuel : Nat) (s : Stream),
      (∀ b ∈ noise, ¬ (b = 45 ∨ isDigit b ∨ (dd = true ∧ b = 46))) →
      s.input = noise ++ x :: more → noise.length < fuel →
      peekNextDigitLoop dd fuel s = some ((x : Int), advance s (x :: more)) := by
  intro noise
  induction noise with
  | nil =>
    intro fuel s _ hin hfuel
    obtain ⟨f, rfl⟩ : ∃ f, fuel = f + 1 := ⟨fuel - 1, by simp at hfuel; omega⟩
    have hx2 : ((x : Int) < 0 ∨ (x : Int) = 45 ∨ ((x : Int) ≥ 48 ∧ (x : Int) ≤ 57) ∨
        (dd = true ∧ (x : Int) = 46)) := by
      rcases hx with h | h | ⟨h1, h2⟩
      · exact Or.inr (Or.inl (by omega))
      · exact Or.inr (Or.inr (Or.inl (by unfold isDigit at h; omega)))
      · exact Or.inr (Or.inr (Or.inr ⟨h1, by omega⟩))
    simp only [peekNextDigitLoop, timedPeek_cons s x more (by simpa using hin), hx2, if_true]
    rw [started_eq_advance, show s.input = x :: more by simpa using hin]
  | cons b noise ih =>
    intro fuel s hnoise hin hfuel
    simp only [List.length_cons] at hfuel
    obtain ⟨f, rfl⟩ : ∃ f, fuel = f + 1 := ⟨fuel - 1, by omega⟩
    have hb := hnoise b (by simp)
    have hb2 : ¬ ((b : Int) < 0 ∨ (b : Int) = 45 ∨ ((b : Int) ≥ 48 ∧ (b : Int) ≤ 57) ∨
        (dd = true ∧ (b : Int) = 46)) := by
      rintro (h | h | h | ⟨h1, h2⟩)
      · omega
      · exact hb (Or.inl (by omega))
      · exact hb (Or.inr (Or.inl (by unfold isDigit; omega)))
      · exact hb (Or.inr (Or.inr ⟨h1, by omega⟩))
    simp only [peekNextDigitLoop, timedPeek_cons s b (noise ++ x :: more) (by simpa using hin),
      hb2, if_false, read_started_cons s b (noise ++ x :: more) (by simpa using hin)]
    rw [ih f (advance s (noise ++ x :: more)) (fun y hy => hnoise y (by simp [hy])) rfl
      (by omega), advance_advance]

theorem started_with_input (s : Stream) (r : List Nat) :
    started ({ s with input := r } : Stream) = advance s r := rfl

/-- One iteration of the loop of `parseInt` when a byte follows the one being
consumed. -/
theorem parseIntLoop_next (skip f : Nat) (isNeg : Bool) (value c : Int) (s : Stream)
    (c0 nxt : Nat) (more : List Nat) (hin : s.input = c0 :: nxt :: more) :
    parseIntLoop skip (f + 1) isNeg value c s
      = if ((nxt : Int) ≥ 48 ∧ (nxt : Int) ≤ 57) ∨ (nxt : Int) = (skip : Int) then
          parseIntLoop skip f (parseIntStep skip isNeg value c).1
            (parseIntStep skip isNeg value c).2 nxt (advance s (nxt :: more))
        else some (if (parseIntStep skip isNeg value c).1
            then wrapLong (-(parseIntStep skip isNeg value c).2)
            else (parseIntStep skip isNeg value c).2, advance s (nxt :: more)) := by
  simp only [parseIntLoop, read_cons s c0 (nxt :: more) hin,
    timedPeek_cons { s with input := nxt :: more } nxt more rfl, started_with_input]

theorem parseIntStep_skip (skip : Nat) (isNeg : Bool) (value : Int) :
    parseIntStep skip isNeg value (skip : Int) = (isNeg, value) := by
  simp [parseIntStep]

theorem parseIntStep_minus (skip : Nat) (isNeg : Bool) (value : Int) (h : skip ≠ 45) :
    parseIntStep skip isNeg value 45 = (true, value) := by
  have : ¬ ((45 : Int) = (skip : Int)) := by omega
  simp [parseIntStep, this]

theorem parseIntStep_digit (skip : Nat) (isNeg : Bool) (v c : Nat) (hc : isDigit c)
    (hne : c ≠ skip) (hv : v * 10 + (c - 48) < 2147483648) :
    parseIntStep skip isNeg (v : Int) (c : Int) = (isNeg, ((v * 10 + (c - 48) : Nat) : Int)) := by
  unfold isDigit at hc
  have h1 : ¬ ((c : Int) = (skip : Int)) := by omega
  have h2 : ¬ ((c : Int) = 45) := by omega
  have h3 : (c : Int) ≥ 48 ∧ (c : Int) ≤ 57 := by omega
  simp only [parseIntStep, h1, h2, h3, if_false, and_self, if_true, Prod.mk.injEq, true_and]
  rw [wrapLong_id _ (by omega) (by omega)]
  omega

theorem foldl_digits_ge (l : List Nat) : ∀ v : Nat,
    v ≤ l.foldl (fun v d => v * 10 + (d - 48)) v := by
  induction l with
  | nil => intro v; exact Nat.le_refl v
  | cons d l ih =>
    intro v
    simp only [List.foldl_cons]
    exact Nat.le_trans (by omega) (ih _)

theorem decimalValue_eq_foldl (ds : List Nat) :
    decimalValue ds = ds.foldl (fun v d => v * 10 + (d - 48)) 0 := by
  unfold decimalValue
  rw [Nat.ofDigits_eq_foldr, List.foldr_reverse, List.foldl_map]
  congr 1
  funext v d
  simp [Nat.mul_comm, Nat.add_comm]

/-- The loop of `parseInt` over a run of digits and skip characters that ends
at a stop byte: the digits are accumulated, nothing wraps while the value stays
below `2^31`, and the stop byte is left unread. -/
theorem parseIntLoop_digits (skip stop : Nat) (rest : List Nat) (hskip : ¬ isDigit skip)
    (hstop : ¬ isDigit stop ∧ stop ≠ skip) :
    ∀ (bs : List Nat) (c v : Nat) (isNeg : Bool) (fuel : Nat) (s : Stream),
      (∀ b ∈ c :: bs, isDigit b ∨ b = skip) →
      s.input = c :: bs ++ stop :: rest → bs.length < fuel →
      ((c :: bs).filter (fun b => b ≠ skip)).foldl (fun v d => v * 10 + (d - 48)) v
        < 2147483648 →
      parseIntLoop skip fuel isNeg (v : Int) (c : Int) s
        = some (if isNeg
            then -((((c :: bs).filter (fun b => b ≠ skip)).foldl
              (fun v d => v * 10 + (d - 48)) v : Nat) : Int)
            else ((((c :: bs).filter (fun b => b ≠ skip)).foldl
              (fun v d => v * 10 + (d - 48)) v : Nat) : Int),
          advance s (stop :: rest)) := by
  intro bs
  induction bs with
  | nil =>
    intro c v isNeg fuel s hbs hin hfuel hval
    obtain ⟨f, rfl⟩ : ∃ f, fuel = f + 1 := ⟨fuel - 1, by simp at hfuel; omega⟩
    have hnot : ¬ (((stop : Int) ≥ 48 ∧ (stop : Int) ≤ 57) ∨ (stop : Int) = (skip : Int)) := by
      have := hstop.1; have := hstop.2
      unfold isDigit at *
      omega
    rw [parseIntLoop_next skip f isNeg v c s c stop rest (by simpa using hin), if_neg hnot]
    by_cases hc : c = skip
    · subst hc
      simp only [parseIntStep_skip, ne_eq, not_true_eq_false, decide_False, List.filter_cons_of_neg,
        Bool.false_eq_true, not_false_eq_true, List.filter_nil, List.foldl_nil] at hval ⊢
      rw [wrapLong_id _ (by omega) (by omega)]
    · have hd : isDigit c := (hbs c (by simp)).resolve_right hc
      simp only [ne_eq, hc, not_false_eq_true, decide_True, List.filter_cons_of_pos,
        List.filter_nil, List.foldl_cons, List.foldl_nil] at hval ⊢
      rw [parseIntStep_digit skip isNeg v c hd hc hval, wrapLong_id _ (by omega) (by omega)]
  | cons b bs ih =>
    intro c v isNeg fuel s hbs hin hfuel hval
    simp only [List.length_cons] at hfuel
    obtain ⟨f, rfl⟩ : ∃ f, fuel = f + 1 := ⟨fuel - 1, by omega⟩
    have hb : ((b : Int) ≥ 48 ∧ (b : Int) ≤ 57) ∨ (b : Int) = (skip : Int) := by
      have := hbs b (by simp)
      unfold isDigit at this
      omega
    rw [parseIntLoop_next skip f isNeg v c s c b (bs ++ stop :: rest) (by simpa using hin),
      if_pos hb]
    by_cases hc : c = skip
    · subst hc
      have hval2 : ((b :: bs).filter (fun b => b ≠ c)).foldl (fun v d => v * 10 + (d - 48)) v
          < 2147483648 := by
        simpa using hval
      rw [parseIntStep_skip, ih b v isNeg f (advance s (b :: (bs ++ stop :: rest)))
        (fun y hy => hbs y (by simp at hy ⊢; tauto)) rfl (by omega) hval2, advance_advance]
      simp
    · have hd : isDigit c := (hbs c (by simp)).resolve_right hc
      have hval2 : ((b :: bs).filter (fun b => b ≠ skip)).foldl (fun v d => v * 10 + (d - 48))
          (v * 10 + (c - 48)) < 2147483648 := by
        simpa [hc] using hval
      have hv1 : v * 10 + (c - 48) < 2147483648 :=
        Nat.lt_of_le_of_lt (foldl_digits_ge _ _) hval2
      rw [parseIntStep_digit skip isNeg v c hd hc hv1,
        ih b (v * 10 + (c - 48)) isNeg f (advance s (b :: (bs ++ stop :: rest)))
        (fun y hy => hbs y (by simp at hy ⊢; tauto)) rfl (by omega) hval2, advance_advance]
      simp [hc]

/-- C3: for a skip character that is neither a digit nor `-`, on a source
`noise ++ optional '-' ++ body ++ [stop] ++ rest` (no digit and no `-` in the
noise; the body a run of digits and skip characters with at least one digit,
starting with a digit when there is no `-`; the stop byte neither a digit nor
the skip character; the digits denoting a value below `2^31`),
`parseInt(skipChar)` returns the decimal value of the digits of the body,
negated if the `-` was there, and leaves `[stop] ++ rest` unread. -/
theorem parseInt_value (skipChar stop : Nat) (noise body rest : List Nat) (neg : Bool) (s : Stream)
    (hskip : ¬ isDigit skipChar ∧ skipChar ≠ 45)
    (hnoise : ∀ b ∈ noise, ¬ isDigit b ∧ b ≠ 45)
    (hbody : ∀ b ∈ body, isDigit b ∨ b = skipChar)
    (hdigit : ∃ b ∈ body, isDigit b)
    (hfirst : neg = false → ∀ d ∈ body.head?, isDigit d)
    (hstop : ¬ isDigit stop ∧ stop ≠ skipChar)
    (hval : decimalValue (body.filter (fun b => b ≠ skipChar)) < 2147483648)
    (hin : s.input = noise ++ (if neg then [45] else []) ++ body ++ stop :: rest) :
    parseInt skipChar s
      = some (if neg then -(decimalValue (body.filter (fun b => b ≠ skipChar)) : Int)
              else (decimalValue (body.filter (fun b => b ≠ skipChar)) : Int),
          advance s (stop :: rest)) := by
  obtain ⟨b0, body1, rfl⟩ : ∃ b0 body1, body = b0 :: body1 := by
    cases body with
    | nil => simp at hdigit
    | cons b0 body1 => exact ⟨b0, body1, rfl⟩
  rw [decimalValue_eq_foldl] at hval ⊢
  have hn : ∀ b ∈ noise, ¬ (b = 45 ∨ isDigit b ∨ (false = true ∧ b = 46)) := by
    intro b hb h
    rcases h with h | h | ⟨h, _⟩
    · exact (hnoise b hb).2 h
    · exact (hnoise b hb).1 h
    · exact absurd h (by decide)
  cases neg with
  | true =>
    simp only [if_true, List.append_assoc, List.singleton_append, List.cons_append] at hin
    have hpeek := peekNextDigitLoop_skip false 45 (b0 :: body1 ++ stop :: rest) (Or.inl rfl)
      noise (s.input.length + 1) s hn (by simpa using hin)
      (by simp only [hin, List.length_append]; omega)
    have hb0 : (((b0 : Nat) : Int) ≥ 48 ∧ ((b0 : Nat) : Int) ≤ 57) ∨ ((b0 : Nat) : Int) = (skipChar : Int) := by
      have := hbody b0 (by simp)
      unfold isDigit at this
      omega
    have hloop := parseIntLoop_digits skipChar stop rest hskip.1 hstop body1 b0 0 true
      (body1.length + 1 + (rest.length + 1) + 1)
      (advance s (b0 :: (body1 ++ stop :: rest))) hbody rfl (by omega) hval
    simp only [advance_advance, if_true, Nat.cast_zero] at hloop
    simp only [parseInt, peekNextDigit, hpeek, advance_input, List.length_cons,
      List.length_append]
    rw [if_neg (show ¬ (((45 : Nat) : Int) < 0) by omega),
      parseIntLoop_next skipChar _ false 0 ((45 : Nat) : Int)
        (advance s (45 :: (b0 :: body1 ++ stop :: rest)))
        45 b0 (body1 ++ stop :: rest) rfl, if_pos hb0]
    have hstep : parseIntStep skipChar false 0 ((45 : Nat) : Int) = (true, 0) :=
      parseIntStep_minus skipChar false 0 hskip.2
    rw [hstep, advance_advance]
    simp only [if_true]
    exact hloop
  | false =>
    simp only [Bool.false_eq_true, if_false, List.append_nil, List.append_assoc,
      List.cons_append] at hin
    have hd0 : isDigit b0 := hfirst rfl b0 (by simp)
    have hpeek := peekNextDigitLoop_skip false b0 (body1 ++ stop :: rest) (Or.inr (Or.inl hd0))
      noise (s.input.length + 1) s hn hin
      (by simp only [hin, List.length_append]; omega)
    have hloop := parseIntLoop_digits skipChar stop rest hskip.1 hstop body1 b0 0 false
      (body1.length + (rest.length + 1) + 1 + 1)
      (advance s (b0 :: (body1 ++ stop :: rest))) hbody rfl (by omega) hval
    simp only [advance_advance, Nat.cast_zero] at hloop
    simp only [parseInt, peekNextDigit, hpeek, advance_input, List.length_cons,
      List.length_append]
    rw [if_neg (show ¬ ((b0 : Int) < 0) by omega)]
    exact hloop

/-- C3, example of the specification: `parseInt('_')` on `"12_345,"` returns
12345 and leaves `","`. -/
theorem parseInt_value_witness :
    parseInt 95 (onInput (ascii "12_345,"))
      = some (if false then -(decimalValue ((ascii "12_345").filter (fun b => b ≠ 95)) : Int)
              else (decimalValue ((ascii "12_345").filter (fun b => b ≠ 95)) : Int),
          advance (onInput (ascii "12_345,")) (44 :: [])) ∧
    decimalValue ((ascii "12_345").filter (fun b => b ≠ 95)) = 12345 :=
  ⟨parseInt_value 95 44 [] (ascii "12_345") [] false (onInput (ascii "12_345,"))
    (by decide) (by decide) (by decide) (by decide) (by decide) (by decide) (by decide)
    (by decide), by decide⟩

theorem parseIntStep_no_digit (skip : Nat) (isNeg : Bool) (c : Int) (hc : ¬ (c ≥ 48 ∧ c ≤ 57)) :
    (parseIntStep skip isNeg 0 c).2 = 0 := by
  unfold parseIntStep
  split_ifs <;> rfl

/-- The gate on a source without digits ends at a `-` or at the timeout. -/
theorem peekNextDigitLoop_no_digit :
    ∀ (inp : List Nat) (fuel : Nat) (s : Stream),
      s.input = inp → (∀ b ∈ inp, ¬ isDigit b) → s.timeout < UL → inp.length < fuel →
      ∃ c s1, peekNextDigitLoop false fuel s = some (c, s1) ∧ (c < 0 ∨ c = 45) ∧
        s1.timeout < UL ∧ ∀ b ∈ s1.input, ¬ isDigit b := by
  intro inp
  induction inp with
  | nil =>
    intro fuel s hin _ hT hfuel
    obtain ⟨f, rfl⟩ : ∃ f, fuel = f + 1 := ⟨fuel - 1, by simp at hfuel; omega⟩
    refine ⟨-1, timedOut s, ?_, Or.inl (by omega), by simpa using hT, by simp [hin]⟩
    simp [peekNextDigitLoop, timedPeek_nil s hin hT]
  | cons b r ih =>
    intro fuel s hin hnd hT hfuel
    simp only [List.length_cons] at hfuel
    obtain ⟨f, rfl⟩ : ∃ f, fuel = f + 1 := ⟨fuel - 1, by omega⟩
    have hb : ¬ isDigit b := hnd b (by simp)
    by_cases h45 : b = 45
    · subst h45
      refine ⟨45, started s, ?_, Or.inr rfl, by simpa using hT, by simpa [hin] using hnd⟩
      simp [peekNextDigitLoop, timedPeek_cons s 45 r hin]
    · have hgate : ¬ ((b : Int) < 0 ∨ (b : Int) = 45 ∨ ((b : Int) ≥ 48 ∧ (b : Int) ≤ 57) ∨
          (false = true ∧ (b : Int) = 46)) := by
        rintro (h | h | h | ⟨h, _⟩)
        · omega
        · omega
        · exact hb (by unfold isDigit; omega)
        · exact absurd h (by decide)
      obtain ⟨c, s1, h1, h2, h3, h4⟩ := ih f (advance s r) rfl
        (fun y hy => hnd y (by simp [hy])) (by simpa using hT) (by omega)
      refine ⟨c, s1, ?_, h2, h3, h4⟩
      simp only [peekNextDigitLoop, timedPeek_cons s b r hin, hgate, if_false,
        read_started_cons s b r hin, h1]

/-- The loop of `parseInt` on a source without digits, entered with a byte that
is no digit, ends with the value 0. -/
theorem parseIntLoop_no_digit (skip : Nat) :
    ∀ (inp : List Nat) (fuel : Nat) (isNeg : Bool) (c : Int) (s : Stream),
      s.input = inp → (∀ b ∈ inp, ¬ isDigit b) → ¬ (c ≥ 48 ∧ c ≤ 57) → s.timeout < UL →
      inp.length < fuel →
      ∃ s1, parseIntLoop skip fuel isNeg 0 c s = some (0, s1) := by
  intro inp
  induction inp with
  | nil =>
    intro fuel isNeg c s hin _ hc hT hfuel
    obtain ⟨f, rfl⟩ : ∃ f, fuel = f + 1 := ⟨fuel - 1, by simp at hfuel; omega⟩
    have hexit : ¬ (((-1 : Int) ≥ 48 ∧ (-1 : Int) ≤ 57) ∨ (-1 : Int) = (skip : Int)) := by omega
    refine ⟨timedOut s, ?_⟩
    simp only [parseIntLoop, read_nil s hin, timedPeek_nil s hin hT, hexit, if_false,
      parseIntStep_no_digit skip isNeg c hc]
    simp [wrapLong]
  | cons b r ih =>
    intro fuel isNeg c s hin hnd hc hT hfuel
    simp only [List.length_cons] at hfuel
    obtain ⟨f, rfl⟩ : ∃ f, fuel = f + 1 := ⟨fuel - 1, by omega⟩
    cases r with
    | nil =>
      have hexit : ¬ (((-1 : Int) ≥ 48 ∧ (-1 : Int) ≤ 57) ∨ (-1 : Int) = (skip : Int)) := by
        omega
      refine ⟨timedOut { s with input := [] }, ?_⟩
      simp only [parseIntLoop, read_cons s b [] hin,
        timedPeek_nil { s with input := [] } rfl hT, hexit, if_false,
        parseIntStep_no_digit skip isNeg c hc]
      simp [wrapLong]
    | cons b2 r2 =>
      have hb2 : ¬ isDigit b2 := hnd b2 (by simp)
      have hb2i : ¬ ((b2 : Int) ≥ 48 ∧ (b2 : Int) ≤ 57) := by
        unfold isDigit at hb2; omega
      rw [parseIntLoop_next skip f isNeg 0 c s b b2 r2 hin,
        parseIntStep_no_digit skip isNeg c hc]
      by_cases hcont : ((b2 : Int) ≥ 48 ∧ (b2 : Int) ≤ 57) ∨ (b2 : Int) = (skip : Int)
      · rw [if_pos hcont]
        exact ih f _ (b2 : Int) (advance s (b2 :: r2)) rfl (fun y hy => hnd y (by simp [hy]))
          hb2i (by simpa using hT) (by simp only [List.length_cons] at hfuel ⊢; omega)
      · rw [if_neg hcont]
        exact ⟨advance s (b2 :: r2), by simp [wrapLong]⟩

/-- C8: on a source that delivers no decimal digit before it times out (a lone
`-`, only noise, or nothing at all), `parseInt(skipChar)` returns 0, for every
skip character. -/
theorem parseInt_no_digit (skipChar : Nat) (s : Stream) (hT : s.timeout < UL)
    (hnd : ∀ b ∈ s.input, ¬ isDigit b) :
    ∃ s1, parseInt skipChar s = some (0, s1) := by
  obtain ⟨c, s1, h1, h2, h3, h4⟩ :=
    peekNextDigitLoop_no_digit s.input (s.input.length + 1) s rfl hnd hT (by omega)
  simp only [parseInt, peekNextDigit, h1]
  by_cases hc : c < 0
  · exact ⟨s1, by rw [if_pos hc]⟩
  · rw [if_neg hc]
    exact parseIntLoop_no_digit skipChar s1.input (s1.input.length + 1) false c s1 rfl h4
      (by omega) h3 (by omega)

/-- C8, example of the specification: `parseInt` on the source `"-"` followed
by the timeout returns 0. -/
theorem parseInt_no_digit_witness :
    ∃ s1, parseInt 1 (onInput (ascii "-")) = some (0, s1) :=
  parseInt_no_digit 1 (onInput (ascii "-")) (by decide) (by decide)

/-- One iteration of the loop of `parseFloat` when a byte follows the one being
consumed. -/
theorem parseFloatLoop_next {F : Type} (ops : FloatOps F) (skip f : Nat) (l : FloatLocals F)
    (c : Int) (s : Stream) (c0 nxt : Nat) (more : List Nat) (hin : s.input = c0 :: nxt :: more) :
    parseFloatLoop ops skip (f + 1) l c s
      = if ((nxt : Int) ≥ 48 ∧ (nxt : Int) ≤ 57) ∨ (nxt : Int) = 46 ∨ (nxt : Int) = (skip : Int)
        then parseFloatLoop ops skip f (parseFloatStep ops skip l c) nxt (advance s (nxt :: more))
        else some (if (parseFloatStep ops skip l c).isFraction
            then ops.mul (ops.ofLong (if (parseFloatStep ops skip l c).isNegative
                then wrapLong (-(parseFloatStep ops skip l c).value)
                else (parseFloatStep ops skip l c).value)) (parseFloatStep ops skip l c).fraction
            else ops.ofLong (if (parseFloatStep ops skip l c).isNegative
                then wrapLong (-(parseFloatStep ops skip l c).value)
                else (parseFloatStep ops skip l c).value), advance s (nxt :: more)) := by
  simp only [parseFloatLoop, read_cons s c0 (nxt :: more) hin,
    timedPeek_cons { s with input := nxt :: more } nxt more rfl, started_with_input]

/-- The loop of `parseFloat` folds its body over a run of bytes that continue
the literal and stops, without consuming it, at the first byte that does not. -/
theorem parseFloatLoop_run {F : Type} (ops : FloatOps F) (skip stop : Nat) (rest : List Nat)
    (hstop : ¬ isDigit stop ∧ stop ≠ 46 ∧ stop ≠ skip) :
    ∀ (bs : List Nat) (c : Nat) (l : FloatLocals F) (fuel : Nat) (s : Stream),
      (∀ b ∈ bs, isDigit b ∨ b = 46 ∨ b = skip) →
      s.input = c :: bs ++ stop :: rest → bs.length < fuel →
      parseFloatLoop ops skip fuel l (c : Int) s
        = some (if ((c :: bs).foldl (fun l (b : Nat) => parseFloatStep ops skip l (b : Int)) l).isFraction
            then ops.mul (ops.ofLong
              (if ((c :: bs).foldl (fun l (b : Nat) => parseFloatStep ops skip l (b : Int)) l).isNegative
                then wrapLong
                  (-((c :: bs).foldl (fun l (b : Nat) => parseFloatStep ops skip l (b : Int)) l).value)
                else ((c :: bs).foldl (fun l (b : Nat) => parseFloatStep ops skip l (b : Int)) l).value))
              ((c :: bs).foldl (fun l (b : Nat) => parseFloatStep ops skip l (b : Int)) l).fraction
            else ops.ofLong
              (if ((c :: bs).foldl (fun l (b : Nat) => parseFloatStep ops skip l (b : Int)) l).isNegative
                then wrapLong
                  (-((c :: bs).foldl (fun l (b : Nat) => parseFloatStep ops skip l (b : Int)) l).value)
                else ((c :: bs).foldl (fun l (b : Nat) => parseFloatStep ops skip l (b : Int)) l).value),
          advance s (stop :: rest)) := by
  intro bs
  induction bs with
  | nil =>
    intro c l fuel s _ hin hfuel
    obtain ⟨f, rfl⟩ : ∃ f, fuel = f + 1 := ⟨fuel - 1, by simp at hfuel; omega⟩
    have hnot : ¬ (((stop : Int) ≥ 48 ∧ (stop : Int) ≤ 57) ∨ (stop : Int) = 46 ∨
        (stop : Int) = (skip : Int)) := by
      obtain ⟨h1, h2, h3⟩ := hstop
      unfold isDigit at h1
      omega
    rw [parseFloatLoop_next ops skip f l c s c stop rest (by simpa using hin), if_neg hnot]
    rfl
  | cons b bs ih =>
    intro c l fuel s hbs hin hfuel
    simp only [List.length_cons] at hfuel
    obtain ⟨f, rfl⟩ : ∃ f, fuel = f + 1 := ⟨fuel - 1, by omega⟩
    have hb : ((b : Int) ≥ 48 ∧ (b : Int) ≤ 57) ∨ (b : Int) = 46 ∨ (b : Int) = (skip : Int) := by
      have := hbs b (by simp)
      unfold isDigit at this
      omega
    rw [parseFloatLoop_next ops skip f l c s c b (bs ++ stop :: rest) (by simpa using hin),
      if_pos hb, ih b (parseFloatStep ops skip l c) f (advance s (b :: (bs ++ stop :: rest)))
        (fun y hy => hbs y (by simp [hy])) rfl (by omega), advance_advance]
    rfl

theorem parseFloatStep_minus {F : Type} (ops : FloatOps F) (skip : Nat) (l : FloatLocals F)
    (h : skip ≠ 45) :
    parseFloatStep ops skip l ((45 : Nat) : Int) = { l with isNegative := true } := by
  have : ¬ ((45 : Int) = (skip : Int)) := by omega
  simp [parseFloatStep, this]

theorem parseFloatStep_point {F : Type} (ops : FloatOps F) (skip : Nat) (l : FloatLocals F)
    (h : skip ≠ 46) :
    parseFloatStep ops skip l ((46 : Nat) : Int) = { l with isFraction := true } := by
  have : ¬ ((46 : Int) = (skip : Int)) := by omega
  simp [parseFloatStep, this]

theorem parseFloatStep_digit {F : Type} (ops : FloatOps F) (skip : Nat) (l : FloatLocals F)
    (v c : Nat) (hc : isDigit c) (hne : c ≠ skip) (hl : l.value = (v : Int))
    (hv : v * 10 + (c - 48) < 2147483648) :
    parseFloatStep ops skip l (c : Int)
      = { l with value := ((v * 10 + (c - 48) : Nat) : Int),
                 fraction := if l.isFraction then ops.mul l.fraction ops.tenth else l.fraction } := by
  unfold isDigit at hc
  have h1 : ¬ ((c : Int) = (skip : Int)) := by omega
  have h2 : ¬ ((c : Int) = 45) := by omega
  have h3 : ¬ ((c : Int) = 46) := by omega
  have h4 : (c : Int) ≥ 48 ∧ (c : Int) ≤ 57 := by omega
  have h5 : wrapLong ((v : Int) * 10 + (c : Int) - 48) = ((v * 10 + (c - 48) : Nat) : Int) := by
    rw [wrapLong_id _ (by omega) (by omega)]
    omega
  simp only [parseFloatStep, h1, h2, h3, h4, if_false, and_self, if_true, hl, h5]

/-- The body of the loop of `parseFloat`, folded over a run of digits: the value
is continued in decimal and, in fractional mode, the scale is multiplied by
`0.1f` once per digit. -/
theorem parseFloatStep_digits {F : Type} (ops : FloatOps F) (skip : Nat) :
    ∀ (ds : List Nat) (l : FloatLocals F) (v : Nat),
      (∀ d ∈ ds, isDigit d ∧ d ≠ skip) → l.value = (v : Int) →
      ds.foldl (fun v d => v * 10 + (d - 48)) v < 2147483648 →
      ds.foldl (fun l (b : Nat) => parseFloatStep ops skip l (b : Int)) l
        = { l with value := ((ds.foldl (fun v d => v * 10 + (d - 48)) v : Nat) : Int),
                   fraction := if l.isFraction
                     then (fun f => ops.mul f ops.tenth)^[ds.length] l.fraction
                     else l.fraction } := by
  intro ds
  induction ds with
  | nil =>
    intro l v _ hl _
    cases l
    simp only [List.foldl_nil, List.length_nil, Function.iterate_zero, id_eq, ite_self] at hl ⊢
    simp [hl]
  | cons d ds ih =>
    intro l v hds hl hval
    simp only [List.foldl_cons] at hval ⊢
    have hv1 : v * 10 + (d - 48) < 2147483648 := Nat.lt_of_le_of_lt (foldl_digits_ge _ _) hval
    rw [parseFloatStep_digit ops skip l v d (hds d (by simp)).1 (hds d (by simp)).2 hl hv1,
      ih _ (v * 10 + (d - 48)) (fun y hy => hds y (by simp [hy])) rfl hval]
    cases hf : l.isFraction <;> simp [hf]

/-- The body of the loop of `parseFloat`, folded over a literal
`optional '-' ++ a ++ '.' ++ b` in which the skip character does not occur. -/
theorem parseFloatStep_literal {F : Type} (ops : FloatOps F) (skip : Nat) (neg : Bool)
    (a b : List Nat) (ha : ∀ d ∈ a, isDigit d) (hb : ∀ d ∈ b, isDigit d)
    (hskip : skip ∉ (if neg then [45] else []) ++ a ++ 46 :: b)
    (hval : decimalValue (a ++ b) < 2147483648) :
    ((if neg then [45] else []) ++ a ++ 46 :: b).foldl
        (fun l (b : Nat) => parseFloatStep ops skip l (b : Int))
        { isNegative := false, isFraction := false, value := 0, fraction := ops.one }
      = { isNegative := neg, isFraction := true, value := (decimalValue (a ++ b) : Int),
          fraction := (fun f => ops.mul f ops.tenth)^[b.length] ops.one } := by
  rw [decimalValue_eq_foldl, List.foldl_append] at hval ⊢
  have h46 : skip ≠ 46 := fun h => hskip (by simp [h])
  have hsa : ∀ d ∈ a, isDigit d ∧ d ≠ skip :=
    fun d hd => ⟨ha d hd, fun h => hskip (by simp [← h, hd])⟩
  have hsb : ∀ d ∈ b, isDigit d ∧ d ≠ skip :=
    fun d hd => ⟨hb d hd, fun h => hskip (by simp [← h, hd])⟩
  have hva : a.foldl (fun v d => v * 10 + (d - 48)) 0 < 2147483648 :=
    Nat.lt_of_le_of_lt (foldl_digits_ge _ _) hval
  have hsign : (if neg then [45] else []).foldl
      (fun l (b : Nat) => parseFloatStep ops skip l (b : Int))
      ({ isNegative := false, isFraction := false, value := 0, fraction := ops.one } :
        FloatLocals F)
      = { isNegative := neg, isFraction := false, value := ((0 : Nat) : Int),
          fraction := ops.one } := by
    cases neg with
    | true =>
      have h45 : skip ≠ 45 := fun h => hskip (by simp [h])
      simp only [if_true, List.foldl_cons, List.foldl_nil, parseFloatStep_minus ops skip _ h45,
        Nat.cast_zero]
    | false => simp
  rw [List.foldl_append, List.foldl_append, hsign,
    parseFloatStep_digits ops skip a _ 0 hsa rfl hva, List.foldl_cons,
    parseFloatStep_point ops skip _ h46,
    parseFloatStep_digits ops skip b _ (a.foldl (fun v d => v * 10 + (d - 48)) 0) hsb rfl hval]
  simp

/-- Run of `parseFloat` on a source that starts with a byte the gate accepts, goes on
with bytes that continue the literal and then has a stop byte. -/
theorem parseFloat_run {F : Type} (ops : FloatOps F) (skip stop c : Nat) (bs rest : List Nat)
    (s : Stream) (hstop : ¬ isDigit stop ∧ stop ≠ 46 ∧ stop ≠ skip)
    (hc : c = 45 ∨ isDigit c ∨ (true = true ∧ c = 46))
    (hbs : ∀ b ∈ bs, isDigit b ∨ b = 46 ∨ b = skip)
    (hin : s.input = c :: bs ++ stop :: rest) :
    parseFloat ops skip s
      = some (if ((c :: bs).foldl (fun l (b : Nat) => parseFloatStep ops skip l (b : Int))
              { isNegative := false, isFraction := false, value := 0,
                fraction := ops.one }).isFraction
            then ops.mul (ops.ofLong
              (if ((c :: bs).foldl (fun l (b : Nat) => parseFloatStep ops skip l (b : Int))
                  { isNegative := false, isFraction := false, value := 0,
                    fraction := ops.one }).isNegative
                then wrapLong
                  (-((c :: bs).foldl (fun l (b : Nat) => parseFloatStep ops skip l (b : Int))
                    { isNegative := false, isFraction := false, value := 0,
                      fraction := ops.one }).value)
                else ((c :: bs).foldl (fun l (b : Nat) => parseFloatStep ops skip l (b : Int))
                    { isNegative := false, isFraction := false, value := 0,
                      fraction := ops.one }).value))
              ((c :: bs).foldl (fun l (b : Nat) => parseFloatStep ops skip l (b : Int))
                { isNegative := false, isFraction := false, value := 0,
                  fraction := ops.one }).fraction
            else ops.ofLong
              (if ((c :: bs).foldl (fun l (b : Nat) => parseFloatStep ops skip l (b : Int))
                  { isNegative := false, isFraction := false, value := 0,
                    fraction := ops.one }).isNegative
                then wrapLong
                  (-((c :: bs).foldl (fun l (b : Nat) => parseFloatStep ops skip l (b : Int))
                    { isNegative := false, isFraction := false, value := 0,
                      fraction := ops.one }).value)
                else ((c :: bs).foldl (fun l (b : Nat) => parseFloatStep ops skip l (b : Int))
                    { isNegative := false, isFraction := false, value := 0,
                      fraction := ops.one }).value),
          advance s (stop :: rest)) := by
  have hpeek := peekNextDigitLoop_skip true c (bs ++ stop :: rest) hc [] (s.input.length + 1) s
    (by simp) (by simpa using hin) (by simp)
  have hloop := parseFloatLoop_run ops skip stop rest hstop bs c
    { isNegative := false, isFraction := false, value := 0, fraction := ops.one }
    ((c :: (bs ++ stop :: rest)).length + 1) (advance s (c :: (bs ++ stop :: rest))) hbs rfl
    (by simp only [List.length_cons, List.length_append]; omega)
  simp only [advance_advance] at hloop
  simp only [parseFloat, peekNextDigit, hpeek, advance_input]
  rw [if_neg (show ¬ ((c : Int) < 0) by omega)]
  exact hloop

theorem iterate_tenth (n : Nat) : ∀ x : ℚ,
    (fun f => exactOps.mul f exactOps.tenth)^[n] x = x / 10 ^ n := by
  induction n with
  | zero => intro x; simp
  | succ n ih =>
    intro x
    rw [Function.iterate_succ, Function.comp_apply, ih]
    simp only [exactOps, pow_succ]
    field_simp
    exact Or.inl (by ring)

/-- The literal `optional '-' ++ a ++ '.' ++ b` starts with a byte the gate
accepts and goes on with digits and the decimal point. -/
theorem literal_shape (neg : Bool) (a b : List Nat) (ha : ∀ d ∈ a, isDigit d)
    (hb : ∀ d ∈ b, isDigit d) :
    ∃ c bs, (if neg then [45] else []) ++ a ++ 46 :: b = c :: bs ∧
      (c = 45 ∨ isDigit c ∨ (true = true ∧ c = 46)) ∧ ∀ y ∈ bs, isDigit y ∨ y = 46 := by
  have htail : ∀ y ∈ a ++ 46 :: b, isDigit y ∨ y = 46 := by
    intro y hy
    rcases List.mem_append.mp hy with h | h
    · exact Or.inl (ha y h)
    · rcases List.mem_cons.mp h with h | h
      · exact Or.inr h
      · exact Or.inl (hb y h)
  cases neg with
  | true => exact ⟨45, a ++ 46 :: b, by simp, Or.inl rfl, htail⟩
  | false =>
    cases a with
    | nil => exact ⟨46, b, by simp, Or.inr (Or.inr ⟨rfl, rfl⟩), fun y hy => Or.inl (hb y hy)⟩
    | cons d a =>
      refine ⟨d, a ++ 46 :: b, by simp, Or.inr (Or.inl (ha d (by simp))), ?_⟩
      intro y hy
      exact htail y (by simp at hy ⊢; tauto)

/-- Evaluation of `parseFloat('3')` on `"-3.14x"`, for any `float` arithmetic: the
digit `3` is skipped. -/
theorem parseFloat_skip_digit_eval {F : Type} (ops : FloatOps F) :
    parseFloat ops 51 (onInput (ascii "-3.14x"))
      = some (ops.mul (ops.ofLong (-14)) (ops.mul (ops.mul ops.one ops.tenth) ops.tenth),
          advance (onInput (ascii "-3.14x")) (ascii "x")) := by
  rfl

/-- C7 as stated fails when the skip character occurs in the literal: with
`skipChar = '3'` the source `"-3.14x"` (stop byte `x` is not a digit, `.` or
the skip character; the digits denote 314) does not give -314 scaled by 0.1
twice, it gives -14 scaled by 0.1 twice. -/
theorem parseFloat_skip_digit_counterexample :
    parseFloat exactOps 51 (onInput (ascii "-3.14x"))
      ≠ some (exactOps.mul (exactOps.ofLong (-314))
            (exactOps.mul (exactOps.mul exactOps.one exactOps.tenth) exactOps.tenth),
          advance (onInput (ascii "-3.14x")) (ascii "x")) := by
  rw [parseFloat_skip_digit_eval exactOps]
  intro h
  have h2 := (Prod.mk.inj (Option.some.inj h)).1
  simp only [exactOps] at h2
  norm_num at h2

/-- C7, amended: on a source `optional '-' ++ a ++ '.' ++ b ++ [stop] ++ rest`
with digit runs `a`, `b` denoting together an integer `m` below `2^31`, a stop
byte that is not a digit, `.` or the skip character, and a skip character that
does not occur in the literal, `parseFloat(skipChar)` returns, in any `float`
arithmetic, the signed `m` multiplied by a scale that starts at `1.0f` and is
multiplied by `0.1f` once per digit of `b`, and leaves `[stop] ++ rest` unread;
in exact arithmetic that is the value of the decimal literal. -/
theorem parseFloat_value (skipChar stop : Nat) (a b rest : List Nat) (neg : Bool) (s : Stream)
    (ha : ∀ d ∈ a, isDigit d) (hb : ∀ d ∈ b, isDigit d)
    (hstop : ¬ isDigit stop ∧ stop ≠ 46 ∧ stop ≠ skipChar)
    (hskip : skipChar ∉ (if neg then [45] else []) ++ a ++ 46 :: b)
    (hval : decimalValue (a ++ b) < 2147483648)
    (hin : s.input = (if neg then [45] else []) ++ a ++ 46 :: b ++ stop :: rest) :
    (∀ (F : Type) (ops : FloatOps F), parseFloat ops skipChar s
      = some (ops.mul
            (ops.ofLong (if neg then -(decimalValue (a ++ b) : Int) else decimalValue (a ++ b)))
            ((fun f => ops.mul f ops.tenth)^[b.length] ops.one),
          advance s (stop :: rest))) ∧
    parseFloat exactOps skipChar s
      = some (((if neg then -(decimalValue (a ++ b) : Int) else decimalValue (a ++ b) : Int) : ℚ)
            / 10 ^ b.length,
          advance s (stop :: rest)) := by
  have key : ∀ (F : Type) (ops : FloatOps F), parseFloat ops skipChar s
      = some (ops.mul
            (ops.ofLong (if neg then -(decimalValue (a ++ b) : Int) else decimalValue (a ++ b)))
            ((fun f => ops.mul f ops.tenth)^[b.length] ops.one),
          advance s (stop :: rest)) := by
    intro F ops
    obtain ⟨c, bs, hlit, hc, hbs⟩ := literal_shape neg a b ha hb
    have hfold := parseFloatStep_literal ops skipChar neg a b ha hb hskip hval
    rw [hlit] at hfold
    rw [parseFloat_run ops skipChar stop c bs rest s hstop hc
      (fun y hy => (hbs y hy).elim Or.inl (fun h => Or.inr (Or.inl h)))
      (by rw [hin, hlit]), hfold]
    simp only [if_true]
    cases neg with
    | true =>
      simp only [if_true]
      rw [wrapLong_id _ (by omega) (by omega)]
    | false => simp
  refine ⟨key, ?_⟩
  rw [key ℚ exactOps, iterate_tenth]
  cases neg <;> simp [exactOps, div_eq_mul_inv]

/-- C7, amended, at the example of the specification: `parseFloat` with the
sentinel skip character on `"-3.14x"` gives -314 scaled by 0.1 twice, in exact
arithmetic -314/100, and leaves `x`. -/
theorem parseFloat_value_witness :
    (∀ (F : Type) (ops : FloatOps F), parseFloat ops 1 (onInput (ascii "-3.14x"))
      = some (ops.mul
            (ops.ofLong (if true then -(decimalValue (ascii "3" ++ ascii "14") : Int)
              else decimalValue (ascii "3" ++ ascii "14")))
            ((fun f => ops.mul f ops.tenth)^[(ascii "14").length] ops.one),
          advance (onInput (ascii "-3.14x")) (120 :: []))) ∧
    parseFloat exactOps 1 (onInput (ascii "-3.14x"))
      = some (((if true then -(decimalValue (ascii "3" ++ ascii "14") : Int)
              else decimalValue (ascii "3" ++ ascii "14") : Int) : ℚ)
            / 10 ^ (ascii "14").length,
          advance (onInput (ascii "-3.14x")) (120 :: [])) :=
  parseFloat_value 1 120 (ascii "3") (ascii "14") [] true (onInput (ascii "-3.14x"))
    (by decide) (by decide) (by decide) (by decide) (by decide) (by decide)

/-! ## Further properties of the pattern scanner -/

theorem findUntilLoop_nil (target : List Nat) (targetLen : Nat) (terminator : List Nat)
    (termLen fuel index termIndex : Nat) (s : Stream) (hin : s.input = [])
    (hT : s.timeout < UL) :
    findUntilLoop target targetLen terminator termLen (fuel + 1) index termIndex s
      = some (false, timedOut s) := by
  simp [findUntilLoop, timedRead_nil s hin hT]

/-- Evaluation of `find("AAB")` on a source that delivers `"AAAB"` and nothing
more. -/
theorem find_AAB_eval (s : Stream) (hin : s.input = [65, 65, 65, 66]) (hT : s.timeout < UL) :
    find [65, 65, 66] s = some (false, timedOut (advance s [])) := by
  have hlen : strlen [65, 65, 66] = 3 := by decide
  have h0 : ¬ charAt [65, 65, 66] 0 = 0 := by decide
  simp only [find, findUntil, findUntilLen, hlen, h0, if_false, hin, List.length_cons,
    List.length_nil]
  rw [findUntilLoop_cons _ _ _ _ _ _ _ s 65 [65, 65, 66] hin (by decide)]
  simp only [charAt, List.getD_cons_zero, List.getD_cons_succ, ne_eq, not_true_eq_false,
    if_false, true_and, ge_iff_le, if_true]
  norm_num
  rw [findUntilLoop_cons _ _ _ _ _ _ _ _ 65 [65, 66] rfl (by decide)]
  simp only [charAt, List.getD_cons_zero, List.getD_cons_succ, ne_eq, not_true_eq_false,
    if_false, true_and, ge_iff_le, if_true]
  norm_num
  rw [findUntilLoop_cons _ _ _ _ _ _ _ _ 65 [66] rfl (by decide)]
  simp only [charAt, List.getD_cons_zero, List.getD_cons_succ, ne_eq, not_true_eq_false,
    if_false, true_and, ge_iff_le, if_true]
  norm_num
  rw [findUntilLoop_cons _ _ _ _ _ _ _ _ 66 [] rfl (by decide)]
  simp only [charAt, List.getD_cons_zero, List.getD_cons_succ, ne_eq, not_true_eq_false,
    if_false, true_and, ge_iff_le, if_true]
  norm_num
  rw [findUntilLoop_nil _ _ _ _ _ _ _ _ rfl (by simpa using hT)]

/-- C12: the target matcher restarts naively: `find("AAB")` on a source that
delivers `"AAAB"` and then times out returns `false` with all four bytes
consumed, although the source contains the target. -/
theorem find_undermatches_overlap (s : Stream) (hin : s.input = ascii "AAAB")
    (hT : s.timeout < UL) :
    find (ascii "AAB") s = some (false, timedOut (advance s [])) ∧
    (timedOut (advance s [])).input = [] ∧
    ascii "AAB" <:+: ascii "AAAB" := by
  refine ⟨find_AAB_eval s hin hT, by simp, ⟨[65], [], by decide⟩⟩

/-- C12 on a fresh stream object (timeout 1000). -/
theorem find_undermatches_overlap_witness :
    find (ascii "AAB") (onInput (ascii "AAAB"))
      = some (false, timedOut (advance (onInput (ascii "AAAB")) [])) ∧
    (timedOut (advance (onInput (ascii "AAAB")) [])).input = [] ∧
    ascii "AAB" <:+: ascii "AAAB" :=
  find_undermatches_overlap (onInput (ascii "AAAB")) (by decide) (by decide)

/-! ## Further properties of the numeric parsers -/

/-- C13 as stated fails: `parseInt` on `"--12x"` returns 0 (and leaves `"-12x"`),
on `"-12x"` it returns -12. -/
theorem parseInt_double_minus_differs :
    (parseInt 1 (onInput (ascii "--12x"))).map (fun r => (r.1, r.2.input))
      = some (0, ascii "-12x") ∧
    (parseInt 1 (onInput (ascii "-12x"))).map (fun r => (r.1, r.2.input))
      = some (-12, ascii "x") ∧
    (parseInt 1 (onInput (ascii "--12x"))).map (fun r => r.1)
      ≠ (parseInt 1 (onInput (ascii "-12x"))).map (fun r => r.1) := by
  decide

/-- C13, amended: only a `-` that is the first byte after the noise is
honoured. For a skip character that is neither a digit nor `-`, a non-empty
digit run `d` with value below `2^31` and a stop byte that is neither a digit
nor the skip character, `parseInt` on `"-" ++ d` returns the negated value of
`d`; on `"--" ++ d` the second `-` ends the loop: the result is 0, one `-` is
consumed and `"-" ++ d` is left unread. -/
theorem parseInt_second_minus (skipChar stop : Nat) (d rest : List Nat) (s1 s2 : Stream)
    (hskip : ¬ isDigit skipChar ∧ skipChar ≠ 45)
    (hd : d ≠ []) (hdig : ∀ b ∈ d, isDigit b)
    (hstop : ¬ isDigit stop ∧ stop ≠ skipChar)
    (hval : decimalValue d < 2147483648)
    (hin1 : s1.input = 45 :: (d ++ stop :: rest))
    (hin2 : s2.input = 45 :: 45 :: (d ++ stop :: rest)) :
    parseInt skipChar s1 = some (-(decimalValue d : Int), advance s1 (stop :: rest)) ∧
    parseInt skipChar s2 = some (0, advance s2 (45 :: (d ++ stop :: rest))) := by
  obtain ⟨b0, d1, rfl⟩ : ∃ b0 d1, d = b0 :: d1 := by
    cases d with
    | nil => exact absurd rfl hd
    | cons b0 d1 => exact ⟨b0, d1, rfl⟩
  have hfilter : (b0 :: d1).filter (fun b => b ≠ skipChar) = b0 :: d1 := by
    rw [List.filter_eq_self]
    intro b hb
    have hbd := hdig b hb
    simpa using fun h : b = skipChar => hskip.1 (h ▸ hbd)
  constructor
  · have hpeek := peekNextDigitLoop_skip false 45 (b0 :: d1 ++ stop :: rest) (Or.inl rfl)
      [] (s1.input.length + 1) s1 (by simp) (by simpa using hin1) (by simp)
    have hb0 : (((b0 : Nat) : Int) ≥ 48 ∧ ((b0 : Nat) : Int) ≤ 57) ∨
        ((b0 : Nat) : Int) = (skipChar : Int) := by
      have := hdig b0 (by simp)
      unfold isDigit at this
      omega
    rw [decimalValue_eq_foldl] at hval ⊢
    have hloop := parseIntLoop_digits skipChar stop rest hskip.1 hstop d1 b0 0 true
      (d1.length + 1 + (rest.length + 1) + 1)
      (advance s1 (b0 :: (d1 ++ stop :: rest))) (fun b hb => Or.inl (hdig b hb)) rfl
      (by omega) (by rw [hfilter]; exact hval)
    simp only [advance_advance, if_true, Nat.cast_zero, hfilter] at hloop
    simp only [parseInt, peekNextDigit, hpeek, advance_input, List.length_cons,
      List.length_append]
    rw [if_neg (show ¬ (((45 : Nat) : Int) < 0) by omega),
      parseIntLoop_next skipChar _ false 0 ((45 : Nat) : Int)
        (advance s1 (45 :: (b0 :: d1 ++ stop :: rest)))
        45 b0 (d1 ++ stop :: rest) rfl, if_pos hb0]
    have hstep : parseIntStep skipChar false 0 ((45 : Nat) : Int) = (true, 0) :=
      parseIntStep_minus skipChar false 0 hskip.2
    rw [hstep, advance_advance]
    exact hloop
  · have hpeek := peekNextDigitLoop_skip false 45 (45 :: (b0 :: d1 ++ stop :: rest)) (Or.inl rfl)
      [] (s2.input.length + 1) s2 (by simp) (by simpa using hin2) (by simp)
    have hexit : ¬ ((((45 : Nat) : Int) ≥ 48 ∧ ((45 : Nat) : Int) ≤ 57) ∨
        ((45 : Nat) : Int) = (skipChar : Int)) := by
      have := hskip.2
      omega
    simp only [parseInt, peekNextDigit, hpeek, advance_input, List.length_cons,
      List.length_append]
    rw [if_neg (show ¬ (((45 : Nat) : Int) < 0) by omega),
      parseIntLoop_next skipChar _ false 0 ((45 : Nat) : Int)
        (advance s2 (45 :: 45 :: (b0 :: d1 ++ stop :: rest)))
        45 45 (b0 :: d1 ++ stop :: rest) rfl, if_neg hexit]
    have hstep : parseIntStep skipChar false 0 ((45 : Nat) : Int) = (true, 0) :=
      parseIntStep_minus skipChar false 0 hskip.2
    rw [hstep, advance_advance]
    simp [wrapLong]

/-- C13, amended, at `"-12x"` and `"--12x"` with the default skip character. -/
theorem parseInt_second_minus_witness :
    parseInt 1 (onInput (ascii "-12x"))
      = some (-(decimalValue (ascii "12") : Int), advance (onInput (ascii "-12x")) (120 :: [])) ∧
    parseInt 1 (onInput (ascii "--12x"))
      = some (0, advance (onInput (ascii "--12x")) (45 :: (ascii "12" ++ 120 :: []))) :=
  parseInt_second_minus 1 120 (ascii "12") [] (onInput (ascii "-12x")) (onInput (ascii "--12x"))
    (by decide) (by decide) (by decide) (by decide) (by decide) (by decide) (by decide)

/-! ## Further properties of the string accumulator -/

theorem readStringUntilSeqLoop_nil (t : List Nat) (n tl f : Nat) (ret : List Nat)
    (occ ti idx : Nat) (s : Stream) (hin : s.input = []) (hT : s.timeout < UL) :
    readStringUntilSeqLoop t n tl (f + 1) ret occ ti idx s = some (ret, timedOut s) := by
  simp [readStringUntilSeqLoop, timedRead_nil s hin hT]

/-- Evaluation of `readStringUntil("::", 2)` on a source that delivers `"a::::b"`
and nothing more: after the first `"::"` the cursor stays at 2, the third `:`
is compared with the NUL behind the terminator and only resets the cursor, and
the fourth `:` is a first half again. -/
theorem readStringUntilSeq_colons_eval (s : Stream) (hin : s.input = [97, 58, 58, 58, 58, 98])
    (hT : s.timeout < UL) :
    readStringUntilSeq [58, 58] 2 s = some ([97, 58, 58, 58, 58, 98], timedOut (advance s [])) := by
  have hlen : strlen [58, 58] = 2 := by decide
  simp only [readStringUntilSeq, hlen, hin, List.length_cons, List.length_nil]
  rw [readStringUntilSeqLoop_cons _ _ _ _ _ _ _ _ s 97 [58, 58, 58, 58, 98] hin (by decide)
    (by decide)]
  norm_num [charAt]
  rw [readStringUntilSeqLoop_cons _ _ _ _ _ _ _ _ _ 58 [58, 58, 58, 98] rfl (by decide)
    (by decide)]
  norm_num [charAt]
  rw [readStringUntilSeqLoop_cons _ _ _ _ _ _ _ _ _ 58 [58, 58, 98] rfl (by decide)
    (by decide)]
  norm_num [charAt]
  rw [readStringUntilSeqLoop_cons _ _ _ _ _ _ _ _ _ 58 [58, 98] rfl (by decide)
    (by decide)]
  norm_num [charAt]
  rw [readStringUntilSeqLoop_cons _ _ _ _ _ _ _ _ _ 58 [98] rfl (by decide)
    (by decide)]
  norm_num [charAt]
  rw [readStringUntilSeqLoop_cons _ _ _ _ _ _ _ _ _ 98 [] rfl (by decide)
    (by decide)]
  norm_num [charAt]
  rw [readStringUntilSeqLoop_nil _ _ _ _ _ _ _ _ _ rfl (by simpa using hT)]

/-- C14, the code at the failing input: `readStringUntil("::", 2)` on `"a::::b"`
does not stop after the fourth `:`; it reads on to the timeout, returns the
whole `"a::::b"` and leaves nothing unread. -/
theorem readStringUntilSeq_adjacent_missed :
    readStringUntilSeq (ascii "::") 2 (onInput (ascii "a::::b"))
      = some (ascii "a::::b", timedOut (advance (onInput (ascii "a::::b")) [])) ∧
    (timedOut (advance (onInput (ascii "a::::b")) [])).input = [] ∧
    readStringUntilSeq (ascii "::") 2 (onInput (ascii "a::::b"))
      ≠ some (ascii "a::", advance (onInput (ascii "a::::b")) (ascii "b")) := by
  have h := readStringUntilSeq_colons_eval (onInput (ascii "a::::b")) (by decide) (by decide)
  refine ⟨h, by simp, ?_⟩
  have h2 : readStringUntilSeq (ascii "::") 2 (onInput (ascii "a::::b"))
      = some ([97, 58, 58, 58, 58, 98], timedOut (advance (onInput (ascii "a::::b")) [])) := h
  rw [h2]
  intro hc
  have := (Prod.mk.inj (Option.some.inj hc)).1
  exact absurd this (by decide)

/-- C15 as stated fails: the string `readStringUntil("::", 2)` returns on
`"foo::bar::baz"` contains the first terminator occurrence. -/
theorem readStringUntilSeq_keeps_earlier_example :
    (readStringUntilSeq (ascii "::") 2 (onInput (ascii "foo::bar::baz"))).map
      (fun r => (r.1, decide (ascii "::" <:+: r.1))) = some (ascii "foo::bar", true) := by
  decide

/-- C15, amended: only the `n`-th terminator occurrence is stripped. For a
non-empty terminator string `t` and `n ≥ 2` non-empty segments without zero
bytes and without bytes of `t`, the string `readStringUntil(t, n)` returns on
`s₁ t s₂ t … sₙ t rest` is `s₁ t … t sₙ`; it contains the earlier terminator
occurrences. -/
theorem readStringUntilSeq_keeps_earlier (t rest : List Nat) (segs : List (List Nat))
    (s : Stream) (ht : t ≠ []) (htb : ∀ b ∈ t, b ≠ 0 ∧ b < 256) (h2 : 2 ≤ segs.length)
    (hn : segs.length < 4294967296)
    (hsegs : ∀ seg ∈ segs, seg ≠ [] ∧ ∀ b ∈ seg, b ≠ 0 ∧ b < 256 ∧ b ∉ t)
    (hin : s.input = (segs.map (fun seg => seg ++ t)).flatten ++ rest) :
    ∃ r, readStringUntilSeq t segs.length s = some (r, advance s rest) ∧
      r = List.intercalate t segs ∧ t <:+: r := by
  have hsne : segs ≠ [] := by
    intro h; rw [h] at h2; simp at h2
  have := readStringUntilSeqLoop_segments t rest segs.length ht htb hn segs [] 0 0
    (rest.length + 1) s hsne hsegs (Or.inl rfl) (by omega) hin
  simp only [List.length_nil, List.nil_append] at this
  refine ⟨List.intercalate t segs, ?_, rfl, ?_⟩
  · simp only [readStringUntilSeq, strlen_eq_length t (fun b hb => (htb b hb).1), hin,
      List.length_append]
    rw [← this]
    congr 1
  · obtain ⟨a, b, l, rfl⟩ : ∃ a b l, segs = a :: b :: l := by
      cases segs with
      | nil => simp at h2
      | cons a l1 =>
        cases l1 with
        | nil => simp at h2
        | cons b l => exact ⟨a, b, l, rfl⟩
    refine ⟨a, List.intercalate t (b :: l), ?_⟩
    simp [List.intercalate, List.intersperse]

/-- C15, amended, at the example `readStringUntil("::", 2)` on `"foo::bar::baz"`. -/
theorem readStringUntilSeq_keeps_earlier_witness :
    ∃ r, readStringUntilSeq (ascii "::") [ascii "foo", ascii "bar"].length
        (onInput (ascii "foo::bar::baz"))
      = some (r, advance (onInput (ascii "foo::bar::baz")) (ascii "baz")) ∧
      r = List.intercalate (ascii "::") [ascii "foo", ascii "bar"] ∧ ascii "::" <:+: r :=
  readStringUntilSeq_keeps_earlier (ascii "::") (ascii "baz") [ascii "foo", ascii "bar"]
    (onInput (ascii "foo::bar::baz")) (by decide) (by decide) (by decide) (by decide)
    (by decide) (by decide)

/-! ## The timeout boundary and the bounded copier -/

theorem timedOut_zero (s : Stream) (h0 : s.timeout = 0) : timedOut s = started s := by
  simp [timedOut, h0]

/-- C16: with the timeout set to 0 and no data available, `timedRead` and
`timedPeek` return -1 after one pass of their loop (a single read or peek
attempt) and without a call of `yield`; hence `parseInt` returns 0,
`readString` the empty string, `readBytes` 0 and `find` of a non-empty target
`false`, all with the yield count unchanged. When a byte is available it is
returned in the first pass, without a yield, whatever the timeout. -/
theorem timeout_zero_immediate (s : Stream) (hin : s.input = []) (h0 : s.timeout = 0) :
    (timedRead s = some (-1, started s) ∧ timedPeek s = some (-1, started s)) ∧
    (timedReadLoop 1 (started s) = some (-1, started s) ∧
      timedPeekLoop 1 (started s) = some (-1, started s)) ∧
    (started s).yields = s.yields ∧
    (∀ skipChar : Nat, parseInt skipChar s = some (0, started s)) ∧
    readString s = some ([], started s) ∧
    (∀ (buffer : List Nat) (length : Nat), ∃ s1,
      readBytes buffer length s = some (0, buffer, s1) ∧ s1.yields = s.yields ∧ s1.input = []) ∧
    (∀ target : List Nat, target ≠ [] → (∀ b ∈ target, b ≠ 0) →
      find target s = some (false, started s)) ∧
    (∀ (s2 : Stream) (b : Nat) (rest : List Nat), s2.input = b :: rest →
      timedRead s2 = some ((b : Int), advance s2 rest) ∧
      timedPeek s2 = some ((b : Int), started s2) ∧
      timedReadLoop 1 (started s2) = some ((b : Int), advance s2 rest) ∧
      timedPeekLoop 1 (started s2) = some ((b : Int), started s2) ∧
      (advance s2 rest).yields = s2.yields ∧ (started s2).yields = s2.yields) := by
  have hT : s.timeout < UL := by rw [h0]; decide
  have hr : timedRead s = some (-1, started s) := by
    rw [timedRead_nil s hin hT, timedOut_zero s h0]
  have hp : timedPeek s = some (-1, started s) := by
    rw [timedPeek_nil s hin hT, timedOut_zero s h0]
  refine ⟨⟨hr, hp⟩, ⟨?_, ?_⟩, rfl, ?_, ?_, ?_, ?_, ?_⟩
  · simp [timedReadLoop, read, hin, h0]
  · simp [timedPeekLoop, peek, hin, h0]
  · intro skipChar
    simp [parseInt, peekNextDigit, peekNextDigitLoop, hin, hp]
  · simp [readString, readStringLoop, hin, hr]
  · intro buffer length
    by_cases hl : length = 0
    · subst hl
      exact ⟨s, by simp [readBytes, readBytesLoop], rfl, hin⟩
    · refine ⟨started s, ?_, rfl, hin⟩
      have hpos : 0 < length := Nat.pos_of_ne_zero hl
      simp [readBytes, readBytesLoop, hpos, hr]
  · intro target hne hnz
    have hc0 : charAt target 0 ≠ 0 := by
      cases target with
      | nil => exact absurd rfl hne
      | cons b t => simpa [charAt] using hnz b (by simp)
    simp only [find, findUntil, findUntilLen, hc0, if_false, hin, List.length_nil, zero_add]
    rw [findUntilLoop_nil _ _ _ _ _ _ _ s hin hT, timedOut_zero s h0]
  · intro s2 b rest hin2
    refine ⟨timedRead_cons s2 b rest hin2, timedPeek_cons s2 b rest hin2, ?_, ?_, rfl, rfl⟩
    · simp [timedReadLoop, read, hin2, started, advance, millis]
    · simp [timedPeekLoop, peek, hin2, started, millis]

/-- C16 on a stream object with timeout 0 and an exhausted source. -/
theorem timeout_zero_immediate_witness :
    (timedRead (setTimeout 0 (onInput [])) = some (-1, started (setTimeout 0 (onInput []))) ∧
      timedPeek (setTimeout 0 (onInput [])) = some (-1, started (setTimeout 0 (onInput [])))) ∧
    (timedReadLoop 1 (started (setTimeout 0 (onInput [])))
        = some (-1, started (setTimeout 0 (onInput []))) ∧
      timedPeekLoop 1 (started (setTimeout 0 (onInput [])))
        = some (-1, started (setTimeout 0 (onInput [])))) ∧
    (started (setTimeout 0 (onInput []))).yields = (setTimeout 0 (onInput [])).yields ∧
    (∀ skipChar : Nat,
      parseInt skipChar (setTimeout 0 (onInput []))
        = some (0, started (setTimeout 0 (onInput [])))) ∧
    readString (setTimeout 0 (onInput [])) = some ([], started (setTimeout 0 (onInput []))) ∧
    (∀ (buffer : List Nat) (length : Nat), ∃ s1,
      readBytes buffer length (setTimeout 0 (onInput [])) = some (0, buffer, s1) ∧
      s1.yields = (setTimeout 0 (onInput [])).yields ∧ s1.input = []) ∧
    (∀ target : List Nat, target ≠ [] → (∀ b ∈ target, b ≠ 0) →
      find target (setTimeout 0 (onInput []))
        = some (false, started (setTimeout 0 (onInput [])))) ∧
    (∀ (s2 : Stream) (b : Nat) (rest : List Nat), s2.input = b :: rest →
      timedRead s2 = some ((b : Int), advance s2 rest) ∧
      timedPeek s2 = some ((b : Int), started s2) ∧
      timedReadLoop 1 (started s2) = some ((b : Int), advance s2 rest) ∧
      timedPeekLoop 1 (started s2) = some ((b : Int), started s2) ∧
      (advance s2 rest).yields = s2.yields ∧ (started s2).yields = s2.yields) :=
  timeout_zero_immediate (setTimeout 0 (onInput [])) (by decide) (by decide)

/-- The loop of `readBytes` copies bytes behind what it has already written
until the buffer length is reached or the source times out. -/
theorem readBytesLoop_copy (length : Nat) :
    ∀ (bytes w tl : List Nat) (fuel : Nat) (s : Stream),
      (∀ b ∈ bytes, b < 256) → s.input = bytes → s.timeout < UL →
      w.length ≤ length → length ≤ w.length + tl.length → length - w.length < fuel →
      ∃ s1, readBytesLoop length fuel w.length (w ++ tl) s
          = some (w.length + min (length - w.length) bytes.length,
              w ++ bytes.take (min (length - w.length) bytes.length)
                ++ tl.drop (min (length - w.length) bytes.length), s1) ∧
        s1.input = bytes.drop (min (length - w.length) bytes.length) := by
  intro bytes
  induction bytes with
  | nil =>
    intro w tl fuel s _ hin hT hw _ hfuel
    obtain ⟨f, rfl⟩ : ∃ f, fuel = f + 1 := ⟨fuel - 1, by omega⟩
    by_cases hlt : w.length < length
    · refine ⟨timedOut s, ?_, by simp [hin]⟩
      simp [readBytesLoop, hlt, timedRead_nil s hin hT]
    · refine ⟨s, ?_, by simp [hin]⟩
      simp [readBytesLoop, hlt]
  | cons b bs ih =>
    intro w tl fuel s hbytes hin hT hw hcap hfuel
    obtain ⟨f, rfl⟩ : ∃ f, fuel = f + 1 := ⟨fuel - 1, by omega⟩
    by_cases hlt : w.length < length
    · obtain ⟨x, tl2, rfl⟩ : ∃ x tl2, tl = x :: tl2 := by
        cases tl with
        | nil => simp at hcap; omega
        | cons x tl2 => exact ⟨x, tl2, rfl⟩
      simp only [List.length_cons] at hcap
      obtain ⟨s1, h1, h2⟩ := ih (w ++ [b]) tl2 f (advance s bs)
        (fun y hy => hbytes y (by simp [hy])) rfl (by simpa using hT)
        (by simp only [List.length_append, List.length_singleton]; omega)
        (by simp only [List.length_append, List.length_singleton]; omega)
        (by simp only [List.length_append, List.length_singleton]; omega)
      simp only [List.length_append, List.length_singleton, List.append_assoc,
        List.singleton_append] at h1 h2
      have hk : min (length - w.length) (b :: bs).length
          = min (length - (w.length + 1)) bs.length + 1 := by
        simp only [List.length_cons]; omega
      have hnneg : ¬ ((b : Int) < 0) := by omega
      refine ⟨s1, ?_, ?_⟩
      · simp only [readBytesLoop, hlt, if_true, timedRead_cons s b bs hin, hnneg, if_false,
          toChar_byte b (hbytes b (by simp)), set_append_length, h1, hk]
        simp only [List.take_succ_cons, List.drop_succ_cons, List.cons_append,
          Option.some.injEq, Prod.mk.injEq, and_true]
        refine ⟨?_, by simp⟩
        generalize min (length - (w.length + 1)) bs.length = k
        omega
      · rw [hk, List.drop_succ_cons]
        exact h2
    · refine ⟨s, ?_, ?_⟩
      · have hz : length - w.length = 0 := by omega
        simp [readBytesLoop, hlt, hz]
      · have hz : length - w.length = 0 := by omega
        simp [hz, hin]

/-- C17: on a source that delivers the bytes `bytes` and then times out,
`readBytes(buf, length)` returns `min(length, len(bytes))`; the buffer then
holds the first bytes of the source in order, in front of its untouched
remainder (nothing is written at or past index `length`, no terminator is
appended), and exactly those bytes are consumed. -/
theorem readBytes_count (bytes buffer : List Nat) (length : Nat) (s : Stream)
    (hbytes : ∀ b ∈ bytes, b < 256) (hcap : length ≤ buffer.length) (hT : s.timeout < UL)
    (hin : s.input = bytes) :
    ∃ s1, readBytes buffer length s
        = some (min length bytes.length,
            bytes.take (min length bytes.length) ++ buffer.drop (min length bytes.length), s1) ∧
      s1.input = bytes.drop (min length bytes.length) ∧
      (bytes.take (min length bytes.length) ++ buffer.drop (min length bytes.length)).drop length
        = buffer.drop length := by
  obtain ⟨s1, h1, h2⟩ := readBytesLoop_copy length bytes [] buffer (length + 1) s hbytes hin hT
    (by simp) (by simpa using hcap) (by simp)
  simp only [List.length_nil, Nat.sub_zero, Nat.zero_add, List.nil_append] at h1 h2
  refine ⟨s1, h1, h2, ?_⟩
  have hk : min length bytes.length ≤ length := Nat.min_le_left _ _
  have hlen : (bytes.take (min length bytes.length)).length = min length bytes.length := by
    rw [List.length_take]; omega
  rw [List.drop_append_eq_append_drop, hlen, List.drop_drop,
    List.drop_eq_nil_of_le (by omega), List.nil_append]
  congr 1
  omega

/-- C17, at a source with five bytes and a request for three, and at a request
for more than the source delivers. -/
theorem readBytes_count_witness :
    (∃ s1, readBytes (List.replicate 8 0) 3 (onInput (ascii "ab,cd"))
        = some (min 3 (ascii "ab,cd").length,
            (ascii "ab,cd").take (min 3 (ascii "ab,cd").length)
              ++ (List.replicate 8 0).drop (min 3 (ascii "ab,cd").length), s1) ∧
      s1.input = (ascii "ab,cd").drop (min 3 (ascii "ab,cd").length) ∧
      ((ascii "ab,cd").take (min 3 (ascii "ab,cd").length)
          ++ (List.replicate 8 0).drop (min 3 (ascii "ab,cd").length)).drop 3
        = (List.replicate 8 0).drop 3) ∧
    (∃ s1, readBytes (List.replicate 8 0) 8 (onInput (ascii "ab,cd"))
        = some (min 8 (ascii "ab,cd").length,
            (ascii "ab,cd").take (min 8 (ascii "ab,cd").length)
              ++ (List.replicate 8 0).drop (min 8 (ascii "ab,cd").length), s1) ∧
      s1.input = (ascii "ab,cd").drop (min 8 (ascii "ab,cd").length) ∧
      ((ascii "ab,cd").take (min 8 (ascii "ab,cd").length)
          ++ (List.replicate 8 0).drop (min 8 (ascii "ab,cd").length)).drop 8
        = (List.replicate 8 0).drop 8) :=
  ⟨readBytes_count (ascii "ab,cd") (List.replicate 8 0) 3 (onInput (ascii "ab,cd"))
      (by decide) (by decide) (by decide) rfl,
   readBytes_count (ascii "ab,cd") (List.replicate 8 0) 8 (onInput (ascii "ab,cd"))
      (by decide) (by decide) (by decide) rfl⟩

/-! ## Soundness and completeness of the naive matcher -/

theorem timedReadLoop_nil_result : ∀ (fuel : Nat) (s : Stream) (c : Int) (s1 : Stream),
    s.input = [] → timedReadLoop fuel s = some (c, s1) → c = -1 := by
  intro fuel
  induction fuel with
  | zero => intro s c s1 _ h; simp [timedReadLoop] at h
  | succ f ih =>
    intro s c s1 hin h
    simp only [timedReadLoop, read, hin] at h
    split_ifs at h with h1 h2 h3
    · omega
    · exact (Prod.mk.inj (Option.some.inj h)).1.symm
    · exact ih (yield s) c s1 hin h
    · exact (Prod.mk.inj (Option.some.inj h)).1.symm

theorem timedRead_nil_result (s : Stream) (c : Int) (s1 : Stream) (hin : s.input = [])
    (h : timedRead s = some (c, s1)) : c = -1 :=
  timedReadLoop_nil_result (s.timeout + 1) (started s) c s1 hin h

/-- The loop of `findUntil` does not return `true` once the source is exhausted. -/
theorem findUntilLoop_nil_not_true (target : List Nat) (targetLen : Nat) (terminator : List Nat)
    (termLen fuel index termIndex : Nat) (s s1 : Stream) (hin : s.input = []) :
    findUntilLoop target targetLen terminator termLen fuel index termIndex s ≠ some (true, s1) := by
  cases fuel with
  | zero => simp [findUntilLoop]
  | succ f =>
    intro h
    simp only [findUntilLoop] at h
    cases hr : timedRead s with
    | none => simp [hr] at h
    | some r =>
      obtain ⟨c, s2⟩ := r
      have hc := timedRead_nil_result s c s2 hin hr
      subst hc
      simp [hr] at h

/-- The step of the target cursor, for a target of `targetLen` bytes at the
start of its buffer: the cursor stays below `targetLen` and the bytes under it
are the last bytes consumed. -/
theorem cursor_step_len (target hist : List Nat) (targetLen index b : Nat) (hpos : 0 < targetLen)
    (hbuf : targetLen ≤ target.length) (hlt : index < targetLen)
    (hinv : target.take index <:+ hist) :
    (if b ≠ charAt target index then 0 else index) < targetLen ∧
    target.take (if b = charAt target (if b ≠ charAt target index then 0 else index)
        then (if b ≠ charAt target index then 0 else index) + 1
        else (if b ≠ charAt target index then 0 else index)) <:+ hist ++ [b] := by
  by_cases h1 : b = charAt target index
  · simp only [h1, ne_eq, not_true_eq_false, if_false, hlt, true_and, if_true]
    rw [take_succ_charAt target index (by omega)]
    obtain ⟨t, ht⟩ := hinv
    exact ⟨t, by rw [← List.append_assoc, ht]⟩
  · simp only [ne_eq, h1, not_false_eq_true, if_true, hpos, true_and]
    by_cases h2 : b = charAt target 0
    · rw [if_pos h2, take_succ_charAt target 0 (by omega), ← h2]
      exact ⟨hist, by simp⟩
    · rw [if_neg h2]
      exact ⟨hist ++ [b], by simp⟩

theorem findUntilBody_eq (target : List Nat) (targetLen : Nat) (terminator : List Nat)
    (termLen index termIndex c : Nat) :
    findUntilBody target targetLen terminator termLen index termIndex c
      = if c = charAt target (if c ≠ charAt target index then 0 else index) ∧
            (if c ≠ charAt target index then 0 else index) + 1 ≥ targetLen
        then Except.error true
        else if termLen > 0 ∧ c = charAt terminator termIndex then
          if termIndex + 1 ≥ termLen then Except.error false
          else Except.ok
            (if c = charAt target (if c ≠ charAt target index then 0 else index)
              then (if c ≠ charAt target index then 0 else index) + 1
              else (if c ≠ charAt target index then 0 else index), termIndex + 1)
        else Except.ok
            (if c = charAt target (if c ≠ charAt target index then 0 else index)
              then (if c ≠ charAt target index then 0 else index) + 1
              else (if c ≠ charAt target index then 0 else index), 0) := by
  simp only [findUntilBody, ne_eq, decide_eq_true_eq]
  by_cases h1 : c = charAt target index
  · simp only [eq_true h1, if_true, not_true_eq_false, if_false, true_and, ge_iff_le]
  · by_cases h2 : c = charAt target 0
    · simp only [eq_false h1, eq_true h2, if_true, not_false_eq_true, if_false, true_and,
        ge_iff_le, zero_add]
    · simp only [eq_false h1, eq_false h2, if_true, not_false_eq_true, if_false, false_and,
        ge_iff_le]

/-- One iteration of the loop of `findUntil` on a non-zero byte, in terms of
the body of the loop. -/
theorem findUntilLoop_cons_body (target : List Nat) (targetLen : Nat) (terminator : List Nat)
    (termLen fuel index termIndex : Nat) (s : Stream) (b : Nat) (rest : List Nat)
    (hin : s.input = b :: rest) (hb : b ≠ 0) :
    findUntilLoop target targetLen terminator termLen (fuel + 1) index termIndex s
      = match findUntilBody target targetLen terminator termLen index termIndex b with
        | Except.error r => some (r, advance s rest)
        | Except.ok (i, t) =>
          findUntilLoop target targetLen terminator termLen fuel i t (advance s rest) := by
  rw [findUntilLoop_cons _ _ _ _ _ _ _ s b rest hin hb, findUntilBody_eq]
  split_ifs <;> rfl

/-- The body of the loop keeps the cursor invariant, and returns `true` only
when the bytes consumed end with the target. -/
theorem findUntilBody_inv (target hist : List Nat) (targetLen : Nat) (terminator : List Nat)
    (termLen index termIndex b : Nat) (hpos : 0 < targetLen) (hbuf : targetLen ≤ target.length)
    (hlt : index < targetLen) (hinv : target.take index <:+ hist) :
    (findUntilBody target targetLen terminator termLen index termIndex b = Except.error true →
      target.take targetLen <:+ hist ++ [b]) ∧
    (∀ i t, findUntilBody target targetLen terminator termLen index termIndex b = Except.ok (i, t) →
      i < targetLen ∧ target.take i <:+ hist ++ [b]) := by
  obtain ⟨hlt1, hsuf⟩ := cursor_step_len target hist targetLen index b hpos hbuf hlt hinv
  rw [findUntilBody_eq]
  generalize (if b ≠ charAt target index then 0 else index) = index1 at hlt1 hsuf ⊢
  by_cases hfull : b = charAt target index1 ∧ index1 + 1 ≥ targetLen
  · rw [if_pos hfull]
    refine ⟨fun _ => ?_, fun i t h => by simp at h⟩
    have he : index1 + 1 = targetLen := by omega
    rw [if_pos hfull.1, he] at hsuf
    exact hsuf
  · rw [if_neg hfull]
    have hlt2 : (if b = charAt target index1 then index1 + 1 else index1) < targetLen := by
      by_cases hhit : b = charAt target index1
      · have : ¬ index1 + 1 ≥ targetLen := fun h => hfull ⟨hhit, h⟩
        simp only [hhit, if_true]; omega
      · simpa [hhit] using hlt1
    generalize (if b = charAt target index1 then index1 + 1 else index1) = index2
      at hlt2 hsuf ⊢
    refine ⟨fun h => ?_, fun i t h => ?_⟩
    · split_ifs at h
      simp at h
    · split_ifs at h
      all_goals
        have := (Prod.mk.inj (Except.ok.inj h)).1
        subst this
        exact ⟨hlt2, hsuf⟩

/-- The cursor invariant along a run of the body of the loop: while no result is
reached the target cursor stays below `targetLen` and the bytes under it are
the last bytes consumed. -/
theorem findUntilScan_inv (target : List Nat) (targetLen : Nat) (terminator : List Nat)
    (termLen : Nat) (hpos : 0 < targetLen) (hbuf : targetLen ≤ target.length) :
    ∀ (bs hist : List Nat) (index termIndex i t : Nat),
      index < targetLen → target.take index <:+ hist →
      findUntilScan target targetLen terminator termLen bs index termIndex = Except.ok (i, t) →
      i < targetLen ∧ target.take i <:+ hist ++ bs := by
  intro bs
  induction bs with
  | nil =>
    intro hist index termIndex i t hlt hinv h
    simp only [findUntilScan, Except.ok.injEq, Prod.mk.injEq] at h
    obtain ⟨rfl, _⟩ := h
    simpa using ⟨hlt, hinv⟩
  | cons b bs ih =>
    intro hist index termIndex i t hlt hinv h
    simp only [findUntilScan] at h
    obtain ⟨_, hok⟩ := findUntilBody_inv target hist targetLen terminator termLen index
      termIndex b hpos hbuf hlt hinv
    cases hbody : findUntilBody target targetLen terminator termLen index termIndex b with
    | error r => simp [hbody] at h
    | ok p =>
      obtain ⟨i1, t1⟩ := p
      simp only [hbody] at h
      obtain ⟨h1, h2⟩ := hok i1 t1 hbody
      have := ih (hist ++ [b]) i1 t1 i t h1 h2 h
      simpa using this

/-- Soundness of the loop of `findUntil`: when it returns `true`, the bytes
consumed end with the target. -/
theorem findUntilLoop_sound (target : List Nat) (targetLen : Nat) (terminator : List Nat)
    (termLen : Nat) (hpos : 0 < targetLen) (hbuf : targetLen ≤ target.length) :
    ∀ (fuel index termIndex : Nat) (s s1 : Stream) (hist : List Nat),
      index < targetLen → target.take index <:+ hist →
      findUntilLoop target targetLen terminator termLen fuel index termIndex s = some (true, s1) →
      ∃ more, s.input = more ++ s1.input ∧ target.take targetLen <:+ hist ++ more := by
  intro fuel
  induction fuel with
  | zero => intro index termIndex s s1 hist _ _ h; simp [findUntilLoop] at h
  | succ f ih =>
    intro index termIndex s s1 hist hlt hinv h
    cases hin : s.input with
    | nil => exact absurd h (findUntilLoop_nil_not_true _ _ _ _ _ _ _ s s1 hin)
    | cons b rest =>
      by_cases hb : b = 0
      · subst hb
        simp [findUntilLoop, timedRead_cons s 0 rest hin] at h
      · rw [findUntilLoop_cons_body _ _ _ _ _ _ _ s b rest hin hb] at h
        obtain ⟨htrue, hok⟩ := findUntilBody_inv target hist targetLen terminator termLen index
          termIndex b hpos hbuf hlt hinv
        cases hbody : findUntilBody target targetLen terminator termLen index termIndex b with
        | error r =>
          simp only [hbody, Option.some.injEq, Prod.mk.injEq] at h
          obtain ⟨rfl, rfl⟩ := h
          exact ⟨[b], by simp, htrue hbody⟩
        | ok p =>
          obtain ⟨i1, t1⟩ := p
          simp only [hbody] at h
          obtain ⟨h1, h2⟩ := hok i1 t1 hbody
          obtain ⟨more, hm1, hm2⟩ := ih i1 t1 (advance s rest) s1 (hist ++ [b]) h1 h2 h
          refine ⟨b :: more, by simpa using hm1, by simpa using hm2⟩

/-- C18: soundness of the naive matcher. For a target of `targetLen ≥ 1` bytes
with a non-zero first byte, every terminator and every source: if `findUntil`
returns `true`, the bytes the call consumed end with the target. The loop
invariant behind it holds along every run of the loop body: the cursor `index`
stays below `targetLen` (the target is not read outside its `targetLen` bytes)
and the last `index` bytes consumed are the first `index` bytes of the target. -/
theorem findUntil_sound (target terminator : List Nat) (targetLen termLen : Nat) (s s1 : Stream)
    (hpos : 1 ≤ targetLen) (hbuf : targetLen ≤ target.length) (h0 : charAt target 0 ≠ 0)
    (hres : findUntilLen target targetLen terminator termLen s = some (true, s1)) :
    (∃ consumed, s.input = consumed ++ s1.input ∧ target.take targetLen <:+ consumed) ∧
    (∀ (bs : List Nat) (index termIndex : Nat),
      findUntilScan target targetLen terminator termLen bs 0 0 = Except.ok (index, termIndex) →
      index < targetLen ∧ target.take index <:+ bs) := by
  constructor
  · simp only [findUntilLen, h0, if_false] at hres
    obtain ⟨more, h1, h2⟩ := findUntilLoop_sound target targetLen terminator termLen hpos hbuf
      (s.input.length + 1) 0 0 s s1 [] hpos (by simp) hres
    exact ⟨more, h1, by simpa using h2⟩
  · intro bs index termIndex h
    have := findUntilScan_inv target targetLen terminator termLen hpos hbuf bs [] 0 0 index
      termIndex hpos (by simp) h
    simpa using this

/-- Evaluation of `findUntil("AB", 2, "X", 1)` on `"xABy"`. -/
theorem findUntilLen_AB_eval :
    findUntilLen (ascii "AB") 2 (ascii "X") 1 (onInput (ascii "xABy"))
      = some (true, advance (onInput (ascii "xABy")) (ascii "y")) := by
  decide

/-- C18 at `findUntil("AB", 2, "X", 1)` on `"xABy"`, which returns `true` with
`"y"` unread: the consumed bytes `"xAB"` end with `"AB"`. -/
theorem findUntil_sound_witness :
    (∃ consumed, (onInput (ascii "xABy")).input
        = consumed ++ (advance (onInput (ascii "xABy")) (ascii "y")).input ∧
      (ascii "AB").take 2 <:+ consumed) ∧
    (∀ (bs : List Nat) (index termIndex : Nat),
      findUntilScan (ascii "AB") 2 (ascii "X") 1 bs 0 0 = Except.ok (index, termIndex) →
      index < 2 ∧ (ascii "AB").take index <:+ bs) :=
  findUntil_sound (ascii "AB") (ascii "X") 2 1 (onInput (ascii "xABy"))
    (advance (onInput (ascii "xABy")) (ascii "y")) (by decide) (by decide) (by decide)
    findUntilLen_AB_eval

/-- While the body of the loop reaches no result on the bytes `bs`, the loop of
`findUntil` consumes them and goes on with the cursors the run of the body
gives. -/
theorem findUntilLoop_scan (target : List Nat) (targetLen : Nat) (terminator : List Nat)
    (termLen : Nat) (more : List Nat) :
    ∀ (bs : List Nat) (index termIndex i t f : Nat) (s : Stream),
      bs ≠ [] → (∀ b ∈ bs, b ≠ 0) → s.input = bs ++ more →
      findUntilScan target targetLen terminator termLen bs index termIndex = Except.ok (i, t) →
      findUntilLoop target targetLen terminator termLen (bs.length + f) index termIndex s
        = findUntilLoop target targetLen terminator termLen f i t (advance s more) := by
  intro bs
  induction bs with
  | nil => intro index termIndex i t f s h; exact absurd rfl h
  | cons b bs ih =>
    intro index termIndex i t f s _ hnz hin hscan
    rw [show (b :: bs).length + f = (bs.length + f) + 1 by simp only [List.length_cons]; omega,
      findUntilLoop_cons_body _ _ _ _ _ _ _ s b (bs ++ more) (by simpa using hin)
        (hnz b (by simp))]
    simp only [findUntilScan] at hscan
    cases hbody : findUntilBody target targetLen terminator termLen index termIndex b with
    | error r => simp [hbody] at hscan
    | ok p =>
      obtain ⟨i1, t1⟩ := p
      simp only [hbody] at hscan ⊢
      by_cases hs : bs = []
      · subst hs
        simp only [findUntilScan, Except.ok.injEq, Prod.mk.injEq] at hscan
        obtain ⟨rfl, rfl⟩ := hscan
        simp
      · rw [ih i1 t1 i t f (advance s (bs ++ more)) hs (fun y hy => hnz y (by simp [hy])) rfl
          hscan, advance_advance]

theorem findUntilLoop_zero (target : List Nat) (targetLen : Nat) (terminator : List Nat)
    (termLen f index termIndex : Nat) (s : Stream) (rest : List Nat)
    (hin : s.input = 0 :: rest) :
    findUntilLoop target targetLen terminator termLen (f + 1) index termIndex s
      = some (false, advance s rest) := by
  simp [findUntilLoop, timedRead_cons s 0 rest hin]

/-- C20 as stated fails when a zero byte occurs in `pre`: for the source
`[0x00] ++ [0x00] ++ "A"` (so `pre = [0x00]`, on which neither cursor completes)
`findUntil("A", "")` returns `false` having consumed one byte, not
`len(pre) + 1 = 2`. -/
theorem findUntil_zero_in_pre :
    (findUntilScan (ascii "A") (strlen (ascii "A")) [] (strlen []) [0] 0 0).isOk = true ∧
    (findUntil (ascii "A") [] (onInput ([0] ++ 0 :: ascii "A"))).map (fun r => (r.1, r.2.input))
      = some (false, 0 :: ascii "A") ∧
    (0 :: ascii "A") ≠ (onInput ([0] ++ 0 :: ascii "A")).input.drop ([0].length + 1) := by
  decide

/-- C20, amended: a zero byte read from the source ends `findUntil` like a
timeout. For a non-empty target string, every terminator string, and a source
`pre ++ [0x00] ++ rest` where `pre` has no zero byte and neither the target nor
the terminator is completed within `pre` (the run of the loop body over `pre`
reaches no result), `findUntil` returns `false` having consumed exactly
`len(pre) + 1` bytes: `rest` is left unread, whatever it contains. -/
theorem findUntil_zero_byte (target terminator pre rest : List Nat) (s : Stream)
    (h0 : charAt target 0 ≠ 0) (hpre : ∀ b ∈ pre, b ≠ 0)
    (hscan : (findUntilScan target (strlen target) terminator (strlen terminator) pre 0 0).isOk
      = true)
    (hin : s.input = pre ++ 0 :: rest) :
    findUntil target terminator s = some (false, advance s rest) ∧
    (advance s rest).input = s.input.drop (pre.length + 1) := by
  refine ⟨?_, by simp [hin]⟩
  simp only [findUntil, findUntilLen, h0, if_false]
  by_cases hp : pre = []
  · subst hp
    exact findUntilLoop_zero _ _ _ _ _ _ _ s rest (by simpa using hin)
  · cases hres : findUntilScan target (strlen target) terminator (strlen terminator) pre 0 0 with
    | error r => simp [hres, Except.isOk, Except.toBool] at hscan
    | ok p =>
      obtain ⟨i, t⟩ := p
      have hfuel : s.input.length + 1 = pre.length + (rest.length + 1 + 1) := by
        simp only [hin, List.length_append, List.length_cons]
        omega
      rw [hfuel, findUntilLoop_scan _ _ _ _ (0 :: rest) pre 0 0 i t _ s hp hpre hin hres,
        findUntilLoop_zero _ _ _ _ _ _ _ _ rest rfl, advance_advance]

/-- C20, amended, at `findUntil("AB", "X")` on `"yA" ++ [0x00] ++ "AB"`: the
target that follows the zero byte is not found. -/
theorem findUntil_zero_byte_witness :
    findUntil (ascii "AB") (ascii "X") (onInput (ascii "yA" ++ 0 :: ascii "AB"))
      = some (false, advance (onInput (ascii "yA" ++ 0 :: ascii "AB")) (ascii "AB")) ∧
    (advance (onInput (ascii "yA" ++ 0 :: ascii "AB")) (ascii "AB")).input
      = (onInput (ascii "yA" ++ 0 :: ascii "AB")).input.drop ((ascii "yA").length + 1) :=
  findUntil_zero_byte (ascii "AB") (ascii "X") (ascii "yA") (ascii "AB")
    (onInput (ascii "yA" ++ 0 :: ascii "AB")) (by decide) (by decide) (by decide) (by decide)

theorem findUntilBody_noterm (target : List Nat) (targetLen : Nat) (terminator : List Nat)
    (termLen index termIndex b : Nat)
    (h : ¬ (termLen > 0 ∧ b = charAt terminator termIndex)) :
    findUntilBody target targetLen terminator termLen index termIndex b = Except.error true ∨
    ∃ i, findUntilBody target targetLen terminator termLen index termIndex b
      = Except.ok (i, 0) := by
  rw [findUntilBody_eq]
  by_cases hfull : b = charAt target (if b ≠ charAt target index then 0 else index) ∧
      (if b ≠ charAt target index then 0 else index) + 1 ≥ targetLen
  · exact Or.inl (by rw [if_pos hfull])
  · exact Or.inr ⟨_, by rw [if_neg hfull, if_neg h]⟩

theorem findUntilBody_term (target : List Nat) (targetLen : Nat) (terminator : List Nat)
    (termLen index termIndex b : Nat)
    (h : termLen > 0 ∧ b = charAt terminator termIndex) :
    findUntilBody target targetLen terminator termLen index termIndex b = Except.error true ∨
    (termIndex + 1 ≥ termLen ∧
      findUntilBody target targetLen terminator termLen index termIndex b
        = Except.error false) ∨
    (¬ termIndex + 1 ≥ termLen ∧
      ∃ i, findUntilBody target targetLen terminator termLen index termIndex b
        = Except.ok (i, termIndex + 1)) := by
  rw [findUntilBody_eq]
  by_cases hfull : b = charAt target (if b ≠ charAt target index then 0 else index) ∧
      (if b ≠ charAt target index then 0 else index) + 1 ≥ targetLen
  · exact Or.inl (by rw [if_pos hfull])
  · by_cases hl : termIndex + 1 ≥ termLen
    · exact Or.inr (Or.inl ⟨hl, by rw [if_neg hfull, if_pos h, if_pos hl]⟩)
    · exact Or.inr (Or.inr ⟨hl, _, by rw [if_neg hfull, if_pos h, if_neg hl]⟩)

/-- Over bytes on which the target is not completed and none of which starts
the terminator, the run of the loop body reaches no result, keeps the
terminator cursor at 0 and keeps the invariant of the target cursor. -/
theorem findUntilScan_through (target : List Nat) (targetLen : Nat) (terminator : List Nat)
    (termLen : Nat) (hpos : 0 < targetLen) (hbuf : targetLen ≤ target.length) :
    ∀ (pre hist : List Nat) (index : Nat),
      index < targetLen → target.take index <:+ hist →
      ¬ target.take targetLen <:+: hist ++ pre →
      (∀ b ∈ pre, ¬ (termLen > 0 ∧ b = charAt terminator 0)) →
      ∃ i, findUntilScan target targetLen terminator termLen pre index 0 = Except.ok (i, 0) ∧
        i < targetLen ∧ target.take i <:+ hist ++ pre := by
  intro pre
  induction pre with
  | nil =>
    intro hist index hlt hinv _ _
    exact ⟨index, rfl, hlt, by simpa using hinv⟩
  | cons b pre ih =>
    intro hist index hlt hinv hnc hterm
    obtain ⟨htrue, hok⟩ := findUntilBody_inv target hist targetLen terminator termLen index 0 b
      hpos hbuf hlt hinv
    rcases findUntilBody_noterm target targetLen terminator termLen index 0 b
      (hterm b (by simp)) with hbody | ⟨i1, hbody⟩
    · exfalso
      obtain ⟨p, hp⟩ := htrue hbody
      exact hnc ⟨p, pre, by rw [hp]; simp⟩
    · obtain ⟨h1, h2⟩ := hok i1 0 hbody
      obtain ⟨i, hi1, hi2, hi3⟩ := ih (hist ++ [b]) i1 h1 h2 (by simpa using hnc)
        (fun y hy => hterm y (by simp [hy]))
      refine ⟨i, ?_, hi2, by simpa using hi3⟩
      simp only [findUntilScan, hbody]
      exact hi1

theorem charAt_mem_tail (t0 : Nat) (tl : List Nat) (i : Nat) (h1 : 0 < i)
    (h2 : i < (t0 :: tl).length) : charAt (t0 :: tl) i ∈ tl := by
  obtain ⟨j, rfl⟩ : ∃ j, i = j + 1 := ⟨i - 1, by omega⟩
  simp only [List.length_cons] at h2
  have hj : j < tl.length := by omega
  simp only [charAt, List.getD_cons_succ]
  rw [List.getD_eq_getElem _ _ hj]
  exact List.getElem_mem _

/-- At an occurrence of a target whose first byte occurs nowhere else in it, the
cursor is set to 1 by the first byte, whatever it was, and then runs through
the target. -/
theorem findUntilLoop_occurrence (t0 : Nat) (tl rest terminator : List Nat) (f index : Nat)
    (s : Stream) (hnz : ∀ b ∈ t0 :: tl, b ≠ 0) (huniq : t0 ∉ tl)
    (hlt : index < (t0 :: tl).length) (hin : s.input = t0 :: tl ++ rest)
    (hfuel : (t0 :: tl).length ≤ f) :
    findUntilLoop (t0 :: tl) (t0 :: tl).length terminator 0 f index 0 s
      = some (true, advance s rest) := by
  simp only [List.length_cons] at hfuel
  obtain ⟨f1, rfl⟩ : ∃ f1, f = f1 + 1 := ⟨f - 1, by omega⟩
  have hi1 : (if t0 ≠ charAt (t0 :: tl) index then 0 else index) = 0 := by
    by_cases hidx : index = 0
    · simp [hidx]
    · have hm := charAt_mem_tail t0 tl index (by omega) hlt
      have : t0 ≠ charAt (t0 :: tl) index := fun h => huniq (h ▸ hm)
      simp [this]
  rw [findUntilLoop_cons _ _ _ _ _ _ _ s t0 (tl ++ rest) (by simpa using hin)
    (hnz t0 (by simp)), hi1]
  have hc0 : t0 = charAt (t0 :: tl) 0 := rfl
  by_cases hs : tl = []
  · subst hs
    simp [charAt]
  · have hpos : 0 < tl.length := List.length_pos.mpr hs
    have hnot : ¬ (t0 = charAt (t0 :: tl) 0 ∧ 0 + 1 ≥ (t0 :: tl).length) := by
      simp only [List.length_cons]; omega
    rw [if_neg hnot, if_neg (by omega), if_pos hc0]
    have := findUntilLoop_match rest tl [t0] f1 0 terminator (advance s (tl ++ rest)) hs
      (fun y hy => hnz y (by simp [hy])) rfl (by omega)
    simp only [List.singleton_append, List.length_singleton, advance_advance] at this
    exact this

/-- C19: completeness of `find` for a target string whose first byte occurs
nowhere else in it. On a source `pre ++ target ++ rest` without zero bytes in
`pre`, where this occurrence of the target is the first one (no occurrence ends
before it does), `find(target)` returns `true` having consumed exactly
`pre ++ target`. -/
theorem find_complete_unique_first (target pre rest : List Nat) (s : Stream)
    (hne : target ≠ []) (hnz : ∀ b ∈ target, b ≠ 0) (huniq : charAt target 0 ∉ target.tail)
    (hpre : ∀ b ∈ pre, b ≠ 0) (hfirst : ¬ target <:+: pre ++ target.dropLast)
    (hin : s.input = pre ++ target ++ rest) :
    find target s = some (true, advance s rest) ∧
    (advance s rest).input = s.input.drop (pre.length + target.length) := by
  refine ⟨?_, by simp [hin]⟩
  obtain ⟨t0, tl, rfl⟩ : ∃ t0 tl, target = t0 :: tl := by
    cases target with
    | nil => exact absurd rfl hne
    | cons t0 tl => exact ⟨t0, tl, rfl⟩
  have hu : t0 ∉ tl := by simpa [charAt] using huniq
  have h0 : charAt (t0 :: tl) 0 ≠ 0 := by simpa [charAt] using hnz t0 (by simp)
  have hnp : ¬ (t0 :: tl) <:+: pre := fun h =>
    hfirst (h.trans (List.prefix_append pre _).isInfix)
  have hpos : 0 < (t0 :: tl).length := by simp
  obtain ⟨i, hscan, hi, _⟩ := findUntilScan_through (t0 :: tl) (t0 :: tl).length [] 0 hpos
    (Nat.le_refl _) pre [] 0 hpos (by simp) (by simpa using hnp) (fun b _ h => by simp at h)
  have hs0 : strlen ([] : List Nat) = 0 := rfl
  simp only [find, findUntil, findUntilLen, h0, if_false, strlen_eq_length (t0 :: tl) hnz, hs0]
  by_cases hp : pre = []
  · subst hp
    exact findUntilLoop_occurrence t0 tl rest [] _ 0 s hnz hu hpos (by simpa using hin)
      (by simp only [hin, List.length_append, List.length_cons]; omega)
  · have hfuel : s.input.length + 1 = pre.length + ((t0 :: tl).length + rest.length + 1) := by
      simp only [hin, List.length_append, List.length_cons]
      omega
    rw [hfuel, findUntilLoop_scan _ _ _ _ (t0 :: tl ++ rest) pre 0 0 i 0 _ s hp hpre
      (by simpa using hin) hscan,
      findUntilLoop_occurrence t0 tl rest [] _ i (advance s (t0 :: tl ++ rest)) hnz hu hi rfl
        (by omega), advance_advance]

/-- C19 at `find("AB")` on `"xAAABz"`: the first occurrence ends after five
bytes, and `"z"` is left. -/
theorem find_complete_unique_first_witness :
    find (ascii "AB") (onInput (ascii "xAA" ++ ascii "AB" ++ ascii "z"))
      = some (true, advance (onInput (ascii "xAA" ++ ascii "AB" ++ ascii "z")) (ascii "z")) ∧
    (advance (onInput (ascii "xAA" ++ ascii "AB" ++ ascii "z")) (ascii "z")).input
      = (onInput (ascii "xAA" ++ ascii "AB" ++ ascii "z")).input.drop
          ((ascii "xAA").length + (ascii "AB").length) :=
  find_complete_unique_first (ascii "AB") (ascii "xAA") (ascii "z")
    (onInput (ascii "xAA" ++ ascii "AB" ++ ascii "z")) (by decide) (by decide) (by decide)
    (by decide) (by decide) (by decide)

/-- From a point where the terminator cursor is in step with an occurrence of
the terminator, and the target is not completed before that occurrence ends,
the scan runs to the end of the terminator and fails there. -/
theorem findUntilLoop_terminator_hist (target rest : List Nat) (hne : target ≠ []) :
    ∀ (suf tpre hist : List Nat) (fuel index : Nat) (s : Stream),
      suf ≠ [] → (∀ b ∈ suf, b ≠ 0) → ¬ target <:+: hist ++ suf →
      s.input = suf ++ rest → suf.length ≤ fuel →
      index < target.length → target.take index <:+ hist →
      findUntilLoop target target.length (tpre ++ suf) (tpre ++ suf).length fuel index
          tpre.length s
        = some (false, advance s rest) := by
  have hpos : 0 < target.length := List.length_pos.mpr hne
  intro suf
  induction suf with
  | nil => intro tpre hist fuel index s h; exact absurd rfl h
  | cons b suf ih =>
    intro tpre hist fuel index s _ hnz hsub hin hfuel hlt hinv
    simp only [List.length_cons] at hfuel
    obtain ⟨f, rfl⟩ : ∃ f, fuel = f + 1 := ⟨fuel - 1, by omega⟩
    rw [findUntilLoop_cons_body _ _ _ _ _ _ _ s b (suf ++ rest) (by simpa using hin)
      (hnz b (by simp))]
    obtain ⟨htrue, hok⟩ := findUntilBody_inv target hist target.length (tpre ++ b :: suf)
      (tpre ++ b :: suf).length index tpre.length b hpos (Nat.le_refl _) hlt hinv
    have hterm : (tpre ++ b :: suf).length > 0 ∧ b = charAt (tpre ++ b :: suf) tpre.length :=
      ⟨by simp, (charAt_append_length tpre b suf).symm⟩
    rcases findUntilBody_term target target.length (tpre ++ b :: suf) (tpre ++ b :: suf).length
      index tpre.length b hterm with hbody | ⟨hl, hbody⟩ | ⟨hl, i, hbody⟩
    · exfalso
      obtain ⟨p, hp⟩ := htrue hbody
      rw [List.take_length] at hp
      exact hsub ⟨p, suf, by rw [hp]; simp⟩
    · have hs : suf = [] := by
        simp only [List.length_append, List.length_cons] at hl
        exact List.length_eq_zero.mp (by omega)
      subst hs
      rw [hbody]
      simp
    · have hs : suf ≠ [] := by
        intro h
        subst h
        simp at hl
      obtain ⟨h1, h2⟩ := hok i (tpre.length + 1) hbody
      have := ih (tpre ++ [b]) (hist ++ [b]) f i (advance s (suf ++ rest)) hs
        (fun y hy => hnz y (by simp [hy])) (by simpa using hsub) rfl (by omega) h1 h2
      simp only [List.append_assoc, List.singleton_append, List.length_append,
        List.length_singleton, advance_advance] at this
      rw [hbody]
      simp only [List.length_append]
      exact this

/-- C11 as stated fails: in `"AAABT"` the terminator `"AAB"` occurs and ends
before the only occurrence of the target `"T"` ends, yet
`findUntil("T", "AAB")` returns `true` (the terminator cursor restarts at the
third `A` and misses the occurrence). -/
theorem findUntil_terminator_missed :
    (findUntil (ascii "T") (ascii "AAB") (onInput (ascii "AAABT"))).map
        (fun r => (r.1, r.2.input)) = some (true, []) ∧
    ascii "AAABT" = ascii "A" ++ ascii "AAB" ++ ascii "T" ∧
    ¬ ascii "T" <:+: ascii "A" ++ ascii "AAB" ∧
    0 ∉ ascii "AAABT" := by
  decide

/-- C11, amended: for a non-empty target string, a non-empty terminator string
and a source `pre ++ terminator ++ rest` where `pre` has no zero byte, where the
run of the loop over `pre` completes neither sequence and leaves the terminator
cursor at 0 (no partial terminator match is pending where the occurrence
starts), and where no occurrence of the target ends within `pre ++ terminator`,
`findUntil(target, terminator)` returns `false` having consumed exactly
`pre ++ terminator`. -/
theorem findUntil_terminator_aborts (target terminator pre rest : List Nat) (s : Stream)
    (hne : target ≠ []) (hT : terminator ≠ [])
    (hnz : ∀ b ∈ target, b ≠ 0) (hnzT : ∀ b ∈ terminator, b ≠ 0) (hpre : ∀ b ∈ pre, b ≠ 0)
    (hstart : ∃ i, findUntilScan target (strlen target) terminator (strlen terminator) pre 0 0
      = Except.ok (i, 0))
    (hsub : ¬ target <:+: pre ++ terminator)
    (hin : s.input = pre ++ terminator ++ rest) :
    findUntil target terminator s = some (false, advance s rest) ∧
    (advance s rest).input = s.input.drop (pre.length + terminator.length) := by
  refine ⟨?_, by simp [hin]⟩
  have h0 : charAt target 0 ≠ 0 := by
    cases target with
    | nil => exact absurd rfl hne
    | cons b t => simpa [charAt] using hnz b (by simp)
  have hpos : 0 < target.length := List.length_pos.mpr hne
  obtain ⟨i, hscan⟩ := hstart
  rw [strlen_eq_length target hnz, strlen_eq_length terminator hnzT] at hscan
  obtain ⟨hi, hinv⟩ := findUntilScan_inv target target.length terminator terminator.length hpos
    (Nat.le_refl _) pre [] 0 0 i 0 hpos (by simp) hscan
  simp only [List.nil_append] at hinv
  simp only [findUntil, findUntilLen, h0, if_false, strlen_eq_length target hnz,
    strlen_eq_length terminator hnzT]
  by_cases hp : pre = []
  · subst hp
    have := findUntilLoop_terminator_hist target rest hne terminator [] [] (s.input.length + 1)
      0 s hT hnzT (by simpa using hsub) (by simpa using hin)
      (by simp only [hin, List.length_append]; omega) hpos (by simp)
    simpa using this
  · have hfuel : s.input.length + 1 = pre.length + (terminator.length + rest.length + 1) := by
      simp only [hin, List.length_append]
      omega
    have := findUntilLoop_terminator_hist target rest hne terminator [] pre
      (terminator.length + rest.length + 1) i (advance s (terminator ++ rest)) hT hnzT hsub rfl
      (by omega) hi hinv
    simp only [List.nil_append, List.length_nil, advance_advance] at this
    rw [hfuel, findUntilLoop_scan _ _ _ _ (terminator ++ rest) pre 0 0 i 0 _ s hp hpre
      (by simpa using hin) hscan]
    exact this

/-- C11, amended, at `findUntil("T", "AB")` on `"AxABT"`: a partial terminator
match in `"Ax"` was reset before the occurrence starts. -/
theorem findUntil_terminator_aborts_witness :
    findUntil (ascii "T") (ascii "AB") (onInput (ascii "Ax" ++ ascii "AB" ++ ascii "T"))
      = some (false, advance (onInput (ascii "Ax" ++ ascii "AB" ++ ascii "T")) (ascii "T")) ∧
    (advance (onInput (ascii "Ax" ++ ascii "AB" ++ ascii "T")) (ascii "T")).input
      = (onInput (ascii "Ax" ++ ascii "AB" ++ ascii "T")).input.drop
          ((ascii "Ax").length + (ascii "AB").length) :=
  findUntil_terminator_aborts (ascii "T") (ascii "AB") (ascii "Ax") (ascii "T")
    (onInput (ascii "Ax" ++ ascii "AB" ++ ascii "T")) (by decide) (by decide) (by decide)
    (by decide) (by decide) ⟨0, rfl⟩ (by decide) (by decide)

end Arduino
